import Mathlib

/-! The record store of proglog (`internal/log/store.go`).

A shallow embedding of the append-only record store and of the parts of the Go
standard library it drives (`os.File`, `bufio.Writer`, `encoding/binary`),
followed by the properties of the store proved over that embedding.

Conventions.
* A byte is a `Fin 256`; a Go `uint64` is a `Nat` reduced `% 2^64` wherever the
  Go code can wrap; a Go `int64` is an `Int`.
* A Go method that mutates its receiver returns the new receiver next to its
  Go results.
* The mutex is not modelled: every method body is one atomic step.
-/

namespace Proglog

/-! ## Bytes and errors -/

abbrev Byte := Fin 256

/-- The error values that can come out of the library calls used by the store. -/
inductive Err where
  /-- The value `io.EOF`: a positional read met the end of the file. -/
  | eof
  /-- The error of `os.File.ReadAt` for an offset below zero. -/
  | negativeOffset
  /-- The value `os.ErrClosed`. -/
  | closed
  /-- A failure of the storage device during a write. -/
  | device
  /-- The error `EFBIG`: a write would grow the file past the largest file offset. -/
  | fileTooLarge
  /-- The value `io.ErrShortWrite`. -/
  | shortWrite
  /-- A failure of `os.Stat`. -/
  | stat
  /-- The error `EINVAL` of `pread`: the offset plus the byte count passes the largest
  file offset. -/
  | invalidArgument
  deriving DecidableEq, Repr

/-- Outcome of a Go call that returns `(T, error)`, may panic, and may make the runtime
end the program with a fatal error (out of memory). -/
inductive Outcome (α : Type) where
  | ok (a : α)
  | error (e : Err)
  | panic
  | fatal
  deriving DecidableEq, Repr

/-- Wrap-around of `uint64` arithmetic. -/
def u64 (n : Nat) : Nat := n % 2 ^ 64

/-- The Go conversion `int64(x)` of a `uint64`. -/
def toInt64 (x : Nat) : Int :=
  if u64 x < 2 ^ 63 then (u64 x : Int) else (u64 x : Int) - 2 ^ 64

/-- The constant `width` of `store.go`. -/
def width : Nat := 8

/-- The constant `defaultBufSize` of `bufio`. -/
def defaultBufSize : Nat := 4096

/-- Largest size of a file: offsets are `int64`. -/
def maxFileSize : Nat := 2 ^ 63 - 1

/-- The runtime bound `maxAlloc` on one allocation (64-bit Linux): `make` panics above it;
an allocation within the bound is taken to succeed. -/
def maxAlloc : Nat := 2 ^ 48

/-! ## `encoding/binary`, big endian -/

/-- The eight bytes written by `binary.BigEndian.PutUint64`. -/
def PutUint64 (v : Nat) : List Byte :=
  [Fin.ofNat (v / 2 ^ 56), Fin.ofNat (v / 2 ^ 48), Fin.ofNat (v / 2 ^ 40),
   Fin.ofNat (v / 2 ^ 32), Fin.ofNat (v / 2 ^ 24), Fin.ofNat (v / 2 ^ 16),
   Fin.ofNat (v / 2 ^ 8), Fin.ofNat v]

/-- The function `binary.BigEndian.Uint64` on the first eight bytes of `b`. -/
def Uint64 (b : List Byte) : Nat :=
  (b.take 8).foldl (fun acc x => acc * 256 + x.val) 0

/-! ## `os.File` -/

/-- An open file handle together with the file behind it.

`content` is the file's bytes. Writes through the handle land at the end of the
file (the handle is the appendable file of the store's contract). `faults` is
the script of the device: the head decides the next write call, `none` (or an
exhausted script) lets it complete, `some k` makes it fail after `k` bytes.
`statErr` is what `os.Stat` on the handle's name answers besides the size. -/
structure File where
  content : List Byte
  closed : Bool
  faults : List (Option Nat)
  statErr : Option Err
  deriving DecidableEq, Repr

/-- Result of `os.File.Write`. -/
structure WriteRes where
  file : File
  n : Nat
  err : Option Err
  deriving DecidableEq, Repr

/-- The method `os.File.Write`: returns a non-nil error whenever `n ≠ len(p)`. -/
def File.Write (f : File) (p : List Byte) : WriteRes :=
  if f.closed then ⟨f, 0, some Err.closed⟩
  else
    let fit := min p.length (maxFileSize - f.content.length)
    match f.faults with
    | some k :: rest =>
        let n := min k fit
        ⟨{ f with content := f.content ++ p.take n, faults := rest }, n, some Err.device⟩
    | _ =>
        ⟨{ f with content := f.content ++ p.take fit, faults := f.faults.tail }, fit,
          if fit < p.length then some Err.fileTooLarge else none⟩

/-- The method `os.File.ReadAt` on a buffer of `len` bytes: the bytes read (their
number is the Go result `n`) and the error. It returns `io.EOF` whenever fewer
than `len` bytes are available; a zero-length buffer never enters the read loop; and
`pread` refuses with `EINVAL`, before it reads anything, a range whose end passes the
largest file offset. -/
def File.ReadAt (f : File) (len : Nat) (off : Int) : List Byte × Option Err :=
  if off < 0 then ([], some Err.negativeOffset)
  else if len = 0 then ([], none)
  else if f.closed then ([], some Err.closed)
  else if off.toNat + len > maxFileSize then ([], some Err.invalidArgument)
  else
    let got := (f.content.drop off.toNat).take len
    (got, if got.length < len then some Err.eof else none)

/-- The method `os.File.Close`. -/
def File.Close (f : File) : File × Option Err :=
  if f.closed then (f, some Err.closed) else ({ f with closed := true }, none)

/-- The call `os.Stat(f.Name())` followed by `Size()`; the name is taken to designate
the file behind the handle whenever the call succeeds. -/
def File.Stat (f : File) : Except Err Nat :=
  match f.statErr with
  | some e => Except.error e
  | none => Except.ok f.content.length

/-! ## `bufio.Writer` -/

/-- The type `bufio.Writer` without its `wr` field: the store passes the file. `buf` is
`b.buf[0:b.n]` and `cap` is `len(b.buf)`. -/
structure Writer where
  err : Option Err
  buf : List Byte
  cap : Nat
  deriving DecidableEq, Repr

/-- The constructor `bufio.NewWriter`. -/
def NewWriter : Writer := ⟨none, [], defaultBufSize⟩

def Writer.Available (b : Writer) : Nat := b.cap - b.buf.length

def Writer.Buffered (b : Writer) : Nat := b.buf.length

/-- Result of `bufio.Writer.Flush`. -/
structure FlushRes where
  w : Writer
  file : File
  err : Option Err
  deriving DecidableEq, Repr

/-- The method `bufio.Writer.Flush`. -/
def Writer.Flush (b : Writer) (f : File) : FlushRes :=
  match b.err with
  | some e => ⟨b, f, some e⟩
  | none =>
    if b.buf.length = 0 then ⟨b, f, none⟩
    else
      let r := f.Write b.buf
      let err := if r.n < b.buf.length ∧ r.err = none then some Err.shortWrite else r.err
      match err with
      | some e => ⟨{ b with buf := b.buf.drop r.n, err := some e }, r.file, some e⟩
      | none => ⟨{ b with buf := [] }, r.file, none⟩

/-- State of the loop of `bufio.Writer.Write`: writer, file, rest of `p`, and `nn`. -/
structure LoopSt where
  w : Writer
  file : File
  p : List Byte
  nn : Nat
  deriving DecidableEq, Repr

/-- The loop branch `n, b.err = b.wr.Write(p)`: a large write on an empty buffer goes
straight to the file. -/
def Writer.writeDirect (st : LoopSt) : LoopSt :=
  let r := st.file.Write st.p
  ⟨{ st.w with err := r.err }, r.file, st.p.drop r.n, st.nn + r.n⟩

/-- The loop branch `n = copy(b.buf[b.n:], p); b.n += n; b.Flush()`: fill the buffer, flush. -/
def Writer.writeFill (st : LoopSt) : LoopSt :=
  let n := min st.w.Available st.p.length
  let r := ({ st.w with buf := st.w.buf ++ st.p.take n } : Writer).Flush st.file
  ⟨r.w, r.file, st.p.drop n, st.nn + n⟩

/-- The loop `for len(p) > b.Available() && b.err == nil` of `bufio.Writer.Write`,
run for at most `fuel` iterations. -/
def Writer.writeLoop : Nat → LoopSt → LoopSt
  | 0, st => st
  | fuel + 1, st =>
    if st.p.length > st.w.Available ∧ st.w.err = none then
      if st.w.Buffered = 0 then Writer.writeLoop fuel (Writer.writeDirect st)
      else Writer.writeLoop fuel (Writer.writeFill st)
    else st

/-- Result of `bufio.Writer.Write`. -/
structure BufWriteRes where
  w : Writer
  file : File
  nn : Nat
  err : Option Err
  deriving DecidableEq, Repr

/-- The method `bufio.Writer.Write`. The loop leaves by its own condition within two
iterations (`Writer.writeLoop_exits`), so the fuel given here never runs out. -/
def Writer.Write (b : Writer) (f : File) (p : List Byte) : BufWriteRes :=
  let st := Writer.writeLoop (p.length + 2) ⟨b, f, p, 0⟩
  match st.w.err with
  | some e => ⟨st.w, st.file, st.nn, some e⟩
  | none =>
    let n := min st.w.Available st.p.length
    ⟨{ st.w with buf := st.w.buf ++ st.p.take n }, st.file, st.nn + n, none⟩

/-- The call `binary.Write(w, binary.BigEndian, v)` for a `uint64` value `v`. -/
def binaryWrite (b : Writer) (f : File) (v : Nat) : BufWriteRes :=
  b.Write f (PutUint64 v)

/-! ## The store -/

/-- The struct `store`. -/
structure store where
  file : File
  buffer : Writer
  size : Nat
  deriving DecidableEq, Repr

/-- The constructor `newStore`. -/
def newStore (f : File) : Except Err store :=
  match f.Stat with
  | Except.error e => Except.error e
  | Except.ok sz => Except.ok { file := f, size := u64 sz, buffer := NewWriter }

/-- Result of `store.Append`. -/
structure AppendRes where
  s : store
  n : Nat
  pos : Nat
  err : Option Err
  deriving DecidableEq, Repr

/-- The method `store.Append`. -/
def store.Append (s : store) (data : List Byte) : AppendRes :=
  let pos := s.size
  let r1 := binaryWrite s.buffer s.file (u64 data.length)
  match r1.err with
  | some e => ⟨{ s with buffer := r1.w, file := r1.file }, 0, 0, some e⟩
  | none =>
    let r2 := r1.w.Write r1.file data
    match r2.err with
    | some e => ⟨{ s with buffer := r2.w, file := r2.file }, 0, 0, some e⟩
    | none =>
      let bytesWritten := r2.nn + width
      ⟨{ file := r2.file, buffer := r2.w, size := u64 (s.size + u64 bytesWritten) },
        u64 bytesWritten, pos, none⟩

/-- The method `store.Read` on a machine of which the memory is given: `mem n` tells
whether `make` of `n` bytes, `n` within `maxAlloc`, finds its memory; when it does not,
the runtime ends the program with a fatal error. -/
def store.ReadMem (mem : Nat → Bool) (s : store) (pos : Nat) : store × Outcome (List Byte) :=
  let fl := s.buffer.Flush s.file
  let s1 : store := { s with buffer := fl.w, file := fl.file }
  match fl.err with
  | some e => (s1, Outcome.error e)
  | none =>
    let r1 := s1.file.ReadAt width (toInt64 pos)
    match r1.2 with
    | some e => (s1, Outcome.error e)
    | none =>
      let n := Uint64 r1.1
      if n > maxAlloc then (s1, Outcome.panic)
      else if mem n = false then (s1, Outcome.fatal)
      else
        let r2 := s1.file.ReadAt n (toInt64 (u64 (pos + width)))
        match r2.2 with
        | some e => (s1, Outcome.error e)
        | none => (s1, Outcome.ok r2.1)

/-- The method `store.Read` on a machine that has the memory for every `make` within
`maxAlloc`: it is `store.ReadMem` with a memory that never runs out
(`store.ReadMem_enough`). -/
def store.Read (s : store) (pos : Nat) : store × Outcome (List Byte) :=
  let fl := s.buffer.Flush s.file
  let s1 : store := { s with buffer := fl.w, file := fl.file }
  match fl.err with
  | some e => (s1, Outcome.error e)
  | none =>
    let r1 := s1.file.ReadAt width (toInt64 pos)
    match r1.2 with
    | some e => (s1, Outcome.error e)
    | none =>
      let n := Uint64 r1.1
      if n > maxAlloc then (s1, Outcome.panic)
      else
        let r2 := s1.file.ReadAt n (toInt64 (u64 (pos + width)))
        match r2.2 with
        | some e => (s1, Outcome.error e)
        | none => (s1, Outcome.ok r2.1)

/-- Result of `store.ReadAt`: the buffer after the call, `n`, and the error. -/
structure ReadAtRes where
  s : store
  data : List Byte
  n : Nat
  err : Option Err
  deriving DecidableEq, Repr

/-- The method `store.ReadAt`. -/
def store.ReadAt (s : store) (data : List Byte) (offset : Int) : ReadAtRes :=
  let fl := s.buffer.Flush s.file
  let s1 : store := { s with buffer := fl.w, file := fl.file }
  match fl.err with
  | some e => ⟨s1, data, 0, some e⟩
  | none =>
    let r := s1.file.ReadAt data.length offset
    ⟨s1, r.1 ++ data.drop r.1.length, r.1.length, r.2⟩

/-- The method `store.Close`. -/
def store.Close (s : store) : store × Option Err :=
  let fl := s.buffer.Flush s.file
  let s1 : store := { s with buffer := fl.w, file := fl.file }
  match fl.err with
  | some e => (s1, some e)
  | none =>
    let c := s1.file.Close
    ({ s1 with file := c.1 }, c.2)

/-! ## Sequences of calls -/

/-- One call on a store. -/
inductive Op where
  | append (data : List Byte)
  | read (pos : Nat)
  | readAt (data : List Byte) (offset : Int)
  deriving DecidableEq, Repr

/-- What one call answered. -/
inductive Res where
  | appended (n pos : Nat)
  | appendFailed (e : Err)
  | read (r : Outcome (List Byte))
  | readAt (data : List Byte) (n : Nat) (err : Option Err)
  deriving DecidableEq, Repr

/-- Whether a call returned without error (and without panic). -/
def Res.isOk : Res → Bool
  | Res.appended _ _ => true
  | Res.appendFailed _ => false
  | Res.read (Outcome.ok _) => true
  | Res.read _ => false
  | Res.readAt _ _ none => true
  | Res.readAt _ _ (some _) => false

/-- Run one call: the store afterwards and the answer. -/
def store.step (s : store) : Op → store × Res
  | Op.append data =>
    let r := s.Append data
    (r.s, match r.err with
          | none => Res.appended r.n r.pos
          | some e => Res.appendFailed e)
  | Op.read pos =>
    let r := s.Read pos
    (r.1, Res.read r.2)
  | Op.readAt data offset =>
    let r := s.ReadAt data offset
    (r.s, Res.readAt r.data r.n r.err)

/-- The store after a sequence of calls. -/
def store.run (s : store) : List Op → store
  | [] => s
  | op :: ops => (s.step op).1.run ops

/-- The answers of a sequence of calls, in order. -/
def store.results (s : store) : List Op → List Res
  | [] => []
  | op :: ops => (s.step op).2 :: (s.step op).1.results ops

/-! ## Auxiliary predicates used in the statements -/

/-- The bytes the store has produced or found: the file followed by the buffer. -/
def store.logical (s : store) : List Byte := s.file.content ++ s.buffer.buf

/-- The device reports no failure on any pending write. -/
def File.NoFault (f : File) : Prop := ∀ o ∈ f.faults, o = none

instance (f : File) : Decidable f.NoFault := by
  unfold File.NoFault; infer_instance

/-- The on-disk form of one record: the length on eight bytes, then the payload. -/
def encodeRecord (p : List Byte) : List Byte := PutUint64 (u64 p.length) ++ p

/-- The on-disk form of a sequence of records, back to back. -/
def encodeAll : List (List Byte) → List Byte
  | [] => []
  | p :: ps => encodeRecord p ++ encodeAll ps

/-! ## Relations and invariants used by the lemmas -/

/-- The relation between a loop state and a later one: a front part of `p`, of length `k`,
has moved to the end of the file followed by the buffer; nothing else has changed. -/
def LoopSt.Adv (st r : LoopSt) (k : Nat) : Prop :=
  k ≤ st.p.length ∧ r.p = st.p.drop k ∧ r.nn = st.nn + k ∧
    r.file.content ++ r.w.buf = st.file.content ++ st.w.buf ++ st.p.take k ∧
    r.w.cap = st.w.cap ∧ r.file.closed = st.file.closed ∧
    (st.file.content.length ≤ maxFileSize → r.file.content.length ≤ maxFileSize) ∧
    (st.w.buf.length ≤ st.w.cap → r.w.buf.length ≤ r.w.cap)

/-- What `Write` has done when it returns, whether it failed or not: the first `nn`
bytes of `p` sit at the end of the file followed by the buffer. -/
structure Writer.WriteSpec (b : Writer) (f : File) (p : List Byte) (r : BufWriteRes) : Prop where
  nn_le : r.nn ≤ p.length
  logical : r.file.content ++ r.w.buf = f.content ++ b.buf ++ p.take r.nn
  cap : r.w.cap = b.cap
  closed : r.file.closed = f.closed
  bound : f.content.length ≤ maxFileSize → r.file.content.length ≤ maxFileSize
  fits : b.buf.length ≤ b.cap → r.w.buf.length ≤ r.w.cap
  nn_of_ok : r.err = none → r.nn = p.length
  err_eq : r.w.err = r.err

/-- The invariant of every store built by `newStore` over an open file: the file is
within the largest file size, the buffer within its capacity, the handle open, and
`size` does not run ahead of the bytes produced. -/
structure store.WF (s : store) : Prop where
  bound : s.file.content.length ≤ maxFileSize
  fits : s.buffer.buf.length ≤ s.buffer.cap
  cap : s.buffer.cap = defaultBufSize
  isOpen : s.file.closed = false
  size_le : s.size ≤ s.logical.length

/-- A store whose `size` counts exactly the bytes of the file and of the buffer. -/
structure store.Clean (s : store) extends store.WF s : Prop where
  size_eq : s.size = s.logical.length

/-- The store that `Read`, `ReadAt` and `Close` work on after their flush. -/
def store.flushed (s : store) : store :=
  { s with buffer := (s.buffer.Flush s.file).w, file := (s.buffer.Flush s.file).file }

/-- The store `t` is `s` with its buffered bytes moved to the end of the file, and nothing
else of the store changed. -/
def store.OnlyFlushed (s t : store) : Prop :=
  t.size = s.size ∧ t.logical = s.logical ∧
  t.file.content = s.file.content ++ s.buffer.buf ∧ t.buffer.buf = [] ∧
  t.buffer.cap = s.buffer.cap ∧ t.buffer.err = s.buffer.err ∧
  t.file.closed = s.file.closed ∧ t.file.statErr = s.file.statErr

/-! ## Definitions for the statements about sequences of calls -/

/-- The store `s0` is what `newStore` returns for the open handle `f` of a file whose
size the file system allows. -/
def Fresh (f : File) (s0 : store) : Prop :=
  f.closed = false ∧ f.content.length ≤ maxFileSize ∧ newStore f = Except.ok s0

/-- The call is not an `Append` that failed. -/
def Res.appendOk : Res → Bool
  | Res.appendFailed _ => false
  | _ => true

/-- The position returned, for a successful `Append`. -/
def Res.position : Res → Option Nat
  | Res.appended _ pos => some pos
  | _ => none

/-- The payload, for an `Append`. -/
def Op.payload : Op → Option (List Byte)
  | Op.append data => some data
  | _ => none

/-- The positions returned by the successful appends among the answers, in order. -/
def positions (rs : List Res) : List Nat := rs.filterMap Res.position

/-- The payloads of the appends among the calls, in order. -/
def payloads (ops : List Op) : List (List Byte) := ops.filterMap Op.payload

/-- The positions that back-to-back records starting at `start` occupy. -/
def expectedPositions (start : Nat) : List (List Byte) → List Nat
  | [] => []
  | p :: ps => start :: expectedPositions (start + (8 + p.length)) ps

/-- The bytes that the records take on disk: eight plus the payload length, each. -/
def totalBytes (ps : List (List Byte)) : Nat := (ps.map (fun p => 8 + p.length)).sum

/-- The device takes the pending bytes of `s` without failure: no fault is scripted and
the file stays within the largest file size. -/
def store.flushable (s : store) : Prop :=
  s.file.NoFault ∧ s.logical.length ≤ maxFileSize

/-! ## Concrete inputs -/

/-- An empty file behind an open handle, on a device that never fails. -/
def emptyFile : File := ⟨[], false, [], none⟩

/-- The store that `newStore` builds over `emptyFile`. -/
def emptyStore : store := ⟨emptyFile, NewWriter, 0⟩

/-- The bytes of the string "hello". -/
def hello : List Byte := [104, 101, 108, 108, 111]

/-- The byte of the string "!". -/
def bang : List Byte := [33]

/-- A file on a device whose next write fails at once. -/
def faultyFile : File := ⟨[], false, [some 0], none⟩

/-- The store that `newStore` builds over `faultyFile`. -/
def faultyStore : store := ⟨faultyFile, NewWriter, 0⟩

/-- A payload one byte longer than what the buffer can still take after the length. -/
def bigPayload : List Byte := List.replicate 4089 0

/-- Eight bytes `0xFF`: as a length they decode to `2^64 - 1`. -/
def ffBytes : List Byte := [255, 255, 255, 255, 255, 255, 255, 255]

/-- A file that holds the eight bytes `0xFF` and nothing else. -/
def ffFile : File := ⟨ffBytes, false, [], none⟩

/-- The store that `newStore` builds over `ffFile`. -/
def ffStore : store := ⟨ffFile, NewWriter, 8⟩

/-- A payload that reads as a record of its own: the length 1 on eight bytes, then one byte. -/
def nestedPayload : List Byte := [0, 0, 0, 0, 0, 0, 0, 1, 7]

/-! ## The in-memory log (`internal/server/log.go`) -/

/-- The struct `Record`. -/
structure Record where
  Value : List Byte
  Offset : Nat
  deriving DecidableEq, Repr

/-- The struct `Log`, without its mutex. -/
structure Log where
  records : List Record
  deriving DecidableEq, Repr

/-- The error values that the package `server` handles: its own `ErrOffsetNotFound`, and
the errors of the JSON codec with their message. -/
inductive SrvErr where
  | offsetNotFound
  | codec (msg : String)
  deriving DecidableEq, Repr

/-- The variable `ErrOffsetNotFound`. -/
def ErrOffsetNotFound : SrvErr := SrvErr.offsetNotFound

/-- The method `Error()` of an error value. -/
def SrvErr.Error : SrvErr → String
  | SrvErr.offsetNotFound => "offset not found"
  | SrvErr.codec msg => msg

/-- The constructor `NewLog`. -/
def NewLog : Log := ⟨[]⟩

/-- The method `Log.Append`: the log afterwards, the offset returned, the error returned. -/
def Log.Append (c : Log) (record : Record) : Log × Nat × Option SrvErr :=
  let record : Record := { record with Offset := u64 c.records.length }
  ({ records := c.records ++ [record] }, record.Offset, none)

/-- The method `Log.Read`: the results `(Record, error)`, or `none` for the panic of an
index out of range in `c.records[offset]`. -/
def Log.Read (c : Log) (offset : Nat) : Option (Record × Option SrvErr) :=
  if offset ≥ u64 c.records.length then some (⟨[], 0⟩, some ErrOffsetNotFound)
  else
    match c.records[offset]? with
    | some r => some (r, none)
    | none => none

/-- The log after appending the records of a list, one after the other. -/
def Log.appendAll (c : Log) : List Record → Log
  | [] => c
  | r :: rs => (c.Append r).1.appendAll rs

/-! ## The consume handler (`internal/server/http.go`) -/

/-- The struct `httpServer`. -/
structure httpServer where
  Log : Log
  deriving DecidableEq, Repr

/-- The struct `ConsumeRequest`. -/
structure ConsumeRequest where
  Offset : Nat
  deriving DecidableEq, Repr

/-- The struct `ConsumeResponse`. -/
structure ConsumeResponse where
  Record : Record
  deriving DecidableEq, Repr

/-- The body of a response: the text of `http.Error`, or an encoded `ConsumeResponse`. -/
inductive Body where
  | text (msg : String)
  | json (resp : ConsumeResponse)
  deriving DecidableEq, Repr

/-- What a handler has sent: the status code and the body. -/
structure Response where
  status : Nat
  body : Body
  deriving DecidableEq, Repr

def StatusOK : Nat := 200

def StatusBadRequest : Nat := 400

def StatusNotFound : Nat := 404

def StatusInternalServerError : Nat := 500

/-- The function `http.Error`. -/
def httpError (msg : String) (code : Nat) : Response := ⟨code, Body.text msg⟩

/-- The function `errors.Is` for a target without wrapping: false on a nil error. -/
def errorsIs (err : Option SrvErr) (target : SrvErr) : Bool := decide (err = some target)

/-- The message `err.Error()` of an error that is not nil. -/
def errText : Option SrvErr → String
  | some e => e.Error
  | none => ""

/-- The method `httpServer.handleConsume`. `decoded` is what decoding the request body
gave, `encodeErr` what encoding the response gives (a failure is taken to occur before
anything is sent); the result is the response, or `none` for a panic. -/
def httpServer.handleConsume (s : httpServer) (decoded : Except SrvErr ConsumeRequest)
    (encodeErr : Option SrvErr) : Option Response :=
  match decoded with
  | Except.error err => some (httpError err.Error StatusBadRequest)
  | Except.ok req =>
    match s.Log.Read req.Offset with
    | none => none
    | some (record, err) =>
      if err ≠ none then some (httpError (errText err) StatusInternalServerError)
      else if errorsIs err ErrOffsetNotFound then
        some (httpError (errText err) StatusNotFound)
      else if err ≠ none then some (httpError (errText err) StatusInternalServerError)
      else
        match encodeErr with
        | some e => some (httpError e.Error StatusInternalServerError)
        | none => some ⟨StatusOK, Body.json ⟨record⟩⟩

/-! ## Lemmas: encoding -/

theorem PutUint64_length (v : Nat) : (PutUint64 v).length = 8 := rfl

theorem Uint64_PutUint64 (v : Nat) (h : v < 2 ^ 64) : Uint64 (PutUint64 v) = v := by
  simp only [Uint64, PutUint64, List.take, List.foldl, Fin.ofNat, Fin.val_mk]
  omega

theorem encodeRecord_length (p : List Byte) : (encodeRecord p).length = 8 + p.length := by
  simp [encodeRecord, PutUint64_length]

/-! ## Lemmas: `os.File` -/

theorem File.Write_content (f : File) (p : List Byte) :
    (f.Write p).file.content = f.content ++ p.take (f.Write p).n := by
  unfold File.Write
  split
  · simp
  · split <;> simp

theorem File.Write_n_le (f : File) (p : List Byte) : (f.Write p).n ≤ p.length := by
  unfold File.Write
  split
  · simp
  · split
    · simp only [ge_iff_le]; omega
    · simp only [ge_iff_le]; omega

theorem File.Write_n_of_ok (f : File) (p : List Byte) (h : (f.Write p).err = none) :
    (f.Write p).n = p.length := by
  by_cases hc : f.closed = true
  · simp [File.Write, hc] at h
  · rcases hf : f.faults with _ | ⟨_ | k, rest⟩
    · simp only [File.Write, hc, hf] at h ⊢
      simp at h ⊢; omega
    · simp only [File.Write, hc, hf] at h ⊢
      simp at h ⊢; omega
    · simp [File.Write, hc, hf] at h

theorem File.Write_closed (f : File) (p : List Byte) : (f.Write p).file.closed = f.closed := by
  unfold File.Write
  split
  · rfl
  · split <;> rfl

theorem File.Write_bound (f : File) (p : List Byte) (h : f.content.length ≤ maxFileSize) :
    (f.Write p).file.content.length ≤ maxFileSize := by
  unfold File.Write
  split
  · exact h
  · split <;> simp <;> omega

theorem File.Write_NoFault (f : File) (p : List Byte) (h : f.NoFault) :
    (f.Write p).file.NoFault := by
  unfold File.Write
  split
  · exact h
  · split
    · rename_i k rest hf
      intro o ho
      exact h o (by rw [hf]; exact List.mem_cons_of_mem _ ho)
    · intro o ho
      exact h o (List.mem_of_mem_tail ho)

theorem File.Write_ok (f : File) (p : List Byte) (hc : f.closed = false) (h : f.NoFault)
    (hfit : f.content.length + p.length ≤ maxFileSize) : (f.Write p).err = none := by
  unfold File.Write
  rw [if_neg (by simp [hc])]
  split
  · rename_i k rest hf
    have := h (some k) (by rw [hf]; exact List.mem_cons_self _ _)
    simp at this
  · simp; omega

/-! ## Lemmas: `bufio.Writer.Flush` -/

theorem Writer.Flush_of_err (b : Writer) (f : File) (e : Err) (h : b.err = some e) :
    b.Flush f = ⟨b, f, some e⟩ := by
  simp [Writer.Flush, h]

theorem Writer.Flush_of_empty (b : Writer) (f : File) (h : b.err = none) (hb : b.buf = []) :
    b.Flush f = ⟨b, f, none⟩ := by
  simp [Writer.Flush, h, hb]

theorem Writer.Flush_of_write_ok (b : Writer) (f : File) (h : b.err = none) (hb : b.buf ≠ [])
    (hw : (f.Write b.buf).err = none) :
    b.Flush f = ⟨{ b with buf := [] }, (f.Write b.buf).file, none⟩ := by
  have hn := File.Write_n_of_ok f b.buf hw
  simp [Writer.Flush, h, hb, hw, hn]

theorem Writer.Flush_of_write_err (b : Writer) (f : File) (e : Err) (h : b.err = none)
    (hb : b.buf ≠ []) (hw : (f.Write b.buf).err = some e) :
    b.Flush f = ⟨{ b with buf := b.buf.drop (f.Write b.buf).n, err := some e },
      (f.Write b.buf).file, some e⟩ := by
  simp [Writer.Flush, h, hb, hw]

/-- The four ways `Flush` can go, as one case analysis. -/
theorem Writer.Flush_cases (b : Writer) (f : File) :
    (∃ e, b.err = some e ∧ b.Flush f = ⟨b, f, some e⟩) ∨
    (b.err = none ∧ b.buf = [] ∧ b.Flush f = ⟨b, f, none⟩) ∨
    (b.err = none ∧ b.buf ≠ [] ∧ (f.Write b.buf).err = none ∧
      b.Flush f = ⟨{ b with buf := [] }, (f.Write b.buf).file, none⟩) ∨
    (∃ e, b.err = none ∧ b.buf ≠ [] ∧ (f.Write b.buf).err = some e ∧
      b.Flush f = ⟨{ b with buf := b.buf.drop (f.Write b.buf).n, err := some e },
        (f.Write b.buf).file, some e⟩) := by
  have opt : ∀ o : Option Err, o = none ∨ ∃ e, o = some e := by
    intro o; cases o <;> simp
  rcases opt b.err with h | ⟨e, h⟩
  · by_cases hb : b.buf = []
    · exact Or.inr (Or.inl ⟨h, hb, Writer.Flush_of_empty b f h hb⟩)
    · rcases opt (f.Write b.buf).err with hw | ⟨e, hw⟩
      · exact Or.inr (Or.inr (Or.inl ⟨h, hb, hw, Writer.Flush_of_write_ok b f h hb hw⟩))
      · exact Or.inr (Or.inr (Or.inr ⟨e, h, hb, hw, Writer.Flush_of_write_err b f e h hb hw⟩))
  · exact Or.inl ⟨e, h, Writer.Flush_of_err b f e h⟩

theorem Writer.Flush_logical (b : Writer) (f : File) :
    (b.Flush f).file.content ++ (b.Flush f).w.buf = f.content ++ b.buf := by
  rcases Writer.Flush_cases b f with ⟨e, _, h⟩ | ⟨_, _, h⟩ | ⟨_, _, hw, h⟩ | ⟨e, _, _, _, h⟩
  · rw [h]
  · rw [h]
  · rw [h]; simp [File.Write_content, File.Write_n_of_ok f b.buf hw]
  · rw [h]; simp [File.Write_content]

theorem Writer.Flush_cap (b : Writer) (f : File) : (b.Flush f).w.cap = b.cap := by
  rcases Writer.Flush_cases b f with ⟨e, _, h⟩ | ⟨_, _, h⟩ | ⟨_, _, _, h⟩ | ⟨e, _, _, _, h⟩ <;>
    rw [h]

theorem Writer.Flush_closed (b : Writer) (f : File) : (b.Flush f).file.closed = f.closed := by
  rcases Writer.Flush_cases b f with ⟨e, _, h⟩ | ⟨_, _, h⟩ | ⟨_, _, _, h⟩ | ⟨e, _, _, _, h⟩ <;>
    rw [h] <;> simp [File.Write_closed]

theorem Writer.Flush_bound (b : Writer) (f : File) (hf : f.content.length ≤ maxFileSize) :
    (b.Flush f).file.content.length ≤ maxFileSize := by
  rcases Writer.Flush_cases b f with ⟨e, _, h⟩ | ⟨_, _, h⟩ | ⟨_, _, _, h⟩ | ⟨e, _, _, _, h⟩ <;>
    rw [h] <;> first | exact hf | exact File.Write_bound f b.buf hf

theorem Writer.Flush_NoFault (b : Writer) (f : File) (hf : f.NoFault) :
    (b.Flush f).file.NoFault := by
  rcases Writer.Flush_cases b f with ⟨e, _, h⟩ | ⟨_, _, h⟩ | ⟨_, _, _, h⟩ | ⟨e, _, _, _, h⟩ <;>
    rw [h] <;> first | exact hf | exact File.Write_NoFault f b.buf hf

theorem Writer.Flush_err_eq (b : Writer) (f : File) : (b.Flush f).w.err = (b.Flush f).err := by
  rcases Writer.Flush_cases b f with ⟨e, he, h⟩ | ⟨he, _, h⟩ | ⟨he, _, _, h⟩ | ⟨e, _, _, _, h⟩ <;>
    rw [h] <;> simp [he]

theorem Writer.Flush_buf_of_ok (b : Writer) (f : File) (h : (b.Flush f).err = none) :
    (b.Flush f).w.buf = [] := by
  rcases Writer.Flush_cases b f with ⟨e, _, h1⟩ | ⟨_, hb, h1⟩ | ⟨_, _, _, h1⟩ | ⟨e, _, _, _, h1⟩ <;>
    rw [h1] at h ⊢ <;> simp_all

theorem Writer.Flush_buf_le (b : Writer) (f : File) :
    (b.Flush f).w.buf.length ≤ b.buf.length := by
  rcases Writer.Flush_cases b f with ⟨e, _, h⟩ | ⟨_, _, h⟩ | ⟨_, _, _, h⟩ | ⟨e, _, _, _, h⟩ <;>
    rw [h] <;> simp

theorem Writer.Flush_ok (b : Writer) (f : File) (hb : b.err = none) (hc : f.closed = false)
    (hf : f.NoFault) (hfit : f.content.length + b.buf.length ≤ maxFileSize) :
    (b.Flush f).err = none := by
  rcases Writer.Flush_cases b f with ⟨e, he, h⟩ | ⟨_, _, h⟩ | ⟨_, _, _, h⟩ | ⟨e, _, _, hw, h⟩
  · rw [hb] at he; cases he
  · rw [h]
  · rw [h]
  · rw [File.Write_ok f b.buf hc hf hfit] at hw; cases hw

/-! ## Lemmas: the loop of `bufio.Writer.Write` -/

theorem LoopSt.Adv.refl (st : LoopSt) : LoopSt.Adv st st 0 := by
  simp [LoopSt.Adv]

theorem LoopSt.Adv.trans {a b c : LoopSt} {j k : Nat} (h1 : LoopSt.Adv a b j)
    (h2 : LoopSt.Adv b c k) : LoopSt.Adv a c (j + k) := by
  obtain ⟨a1, a2, a3, a4, a5, a6, a7, a8⟩ := h1
  obtain ⟨b1, b2, b3, b4, b5, b6, b7, b8⟩ := h2
  rw [a2, List.length_drop] at b1
  refine ⟨by omega, ?_, by omega, ?_, by rw [b5, a5], by rw [b6, a6],
    fun h => b7 (a7 h), fun h => b8 (a8 h)⟩
  · rw [b2, a2, List.drop_drop, Nat.add_comm]
  · rw [b4, a4, a2, List.take_add]; simp

theorem Writer.writeDirect_adv (st : LoopSt) (hb : st.w.Buffered = 0) :
    LoopSt.Adv st (Writer.writeDirect st) (st.file.Write st.p).n := by
  have hbuf : st.w.buf = [] := List.length_eq_zero.mp hb
  refine ⟨File.Write_n_le _ _, rfl, rfl, ?_, rfl, File.Write_closed _ _,
    File.Write_bound _ _, fun h => h⟩
  simp [Writer.writeDirect, File.Write_content, hbuf]

theorem Writer.writeFill_adv (st : LoopSt) :
    LoopSt.Adv st (Writer.writeFill st) (min st.w.Available st.p.length) := by
  refine ⟨Nat.min_le_right _ _, rfl, rfl, ?_, Writer.Flush_cap _ _, Writer.Flush_closed _ _,
    Writer.Flush_bound _ _, ?_⟩
  · simp [Writer.writeFill, Writer.Flush_logical]
  · intro h
    simp only [Writer.writeFill, Writer.Flush_cap]
    refine le_trans (Writer.Flush_buf_le _ _) ?_
    simp only [List.length_append, List.length_take, Writer.Available]
    omega

theorem Writer.writeLoop_of_not_cond (fuel : Nat) (st : LoopSt)
    (h : ¬ (st.p.length > st.w.Available ∧ st.w.err = none)) :
    Writer.writeLoop fuel st = st := by
  cases fuel with
  | zero => rfl
  | succ n => rw [Writer.writeLoop, if_neg h]

theorem Writer.writeLoop_adv (fuel : Nat) :
    ∀ st : LoopSt, ∃ k, LoopSt.Adv st (Writer.writeLoop fuel st) k := by
  induction fuel with
  | zero => intro st; exact ⟨0, LoopSt.Adv.refl st⟩
  | succ fuel ih =>
    intro st
    by_cases hc : st.p.length > st.w.Available ∧ st.w.err = none
    · by_cases hb : st.w.Buffered = 0
      · rw [Writer.writeLoop, if_pos hc, if_pos hb]
        obtain ⟨k, hk⟩ := ih (Writer.writeDirect st)
        exact ⟨_, (Writer.writeDirect_adv st hb).trans hk⟩
      · rw [Writer.writeLoop, if_pos hc, if_neg hb]
        obtain ⟨k, hk⟩ := ih (Writer.writeFill st)
        exact ⟨_, (Writer.writeFill_adv st).trans hk⟩
    · rw [Writer.writeLoop_of_not_cond _ _ hc]
      exact ⟨0, LoopSt.Adv.refl st⟩

theorem Writer.writeDirect_stops (st : LoopSt) :
    ¬ ((Writer.writeDirect st).p.length > (Writer.writeDirect st).w.Available ∧
      (Writer.writeDirect st).w.err = none) := by
  rintro ⟨h1, h2⟩
  have h3 : (st.file.Write st.p).err = none := h2
  have := File.Write_n_of_ok st.file st.p h3
  simp [Writer.writeDirect, this] at h1

/-- Two iterations are enough: the loop of `Write` always leaves by its own condition. -/
theorem Writer.writeLoop_exits (fuel : Nat) (st : LoopSt) :
    ¬ ((Writer.writeLoop (fuel + 2) st).p.length > (Writer.writeLoop (fuel + 2) st).w.Available ∧
      (Writer.writeLoop (fuel + 2) st).w.err = none) := by
  have direct : ∀ (n : Nat) (t : LoopSt), t.w.Buffered = 0 →
      ¬ ((Writer.writeLoop (n + 1) t).p.length > (Writer.writeLoop (n + 1) t).w.Available ∧
        (Writer.writeLoop (n + 1) t).w.err = none) := by
    intro n t hb
    by_cases hc : t.p.length > t.w.Available ∧ t.w.err = none
    · rw [Writer.writeLoop, if_pos hc, if_pos hb,
        Writer.writeLoop_of_not_cond _ _ (Writer.writeDirect_stops t)]
      exact Writer.writeDirect_stops t
    · rw [Writer.writeLoop_of_not_cond _ _ hc]; exact hc
  by_cases hc : st.p.length > st.w.Available ∧ st.w.err = none
  · by_cases hb : st.w.Buffered = 0
    · exact direct (fuel + 1) st hb
    · rw [Writer.writeLoop, if_pos hc, if_neg hb]
      have herr : (Writer.writeFill st).w.err =
          (({ st.w with buf := st.w.buf ++ st.p.take (min st.w.Available st.p.length) } :
            Writer).Flush st.file).err := Writer.Flush_err_eq _ _
      cases he : (({ st.w with buf := st.w.buf ++ st.p.take (min st.w.Available st.p.length) } :
            Writer).Flush st.file).err with
      | none =>
        have hbuf : (Writer.writeFill st).w.buf = [] := Writer.Flush_buf_of_ok _ _ he
        exact direct fuel _ (by simp [Writer.Buffered, hbuf])
      | some e =>
        have hstop : ¬ ((Writer.writeFill st).p.length > (Writer.writeFill st).w.Available ∧
            (Writer.writeFill st).w.err = none) := by
          rintro ⟨_, h2⟩; rw [herr, he] at h2; cases h2
        rw [Writer.writeLoop_of_not_cond _ _ hstop]
        exact hstop
  · rw [Writer.writeLoop_of_not_cond _ _ hc]; exact hc

/-! ## Lemmas: `bufio.Writer.Write` -/

theorem Writer.Write_spec (b : Writer) (f : File) (p : List Byte) :
    Writer.WriteSpec b f p (b.Write f p) := by
  have hadv := Writer.writeLoop_adv (p.length + 2) ⟨b, f, p, 0⟩
  have hex := Writer.writeLoop_exits p.length ⟨b, f, p, 0⟩
  simp only [Writer.Write]
  generalize Writer.writeLoop (p.length + 2) ⟨b, f, p, 0⟩ = st at hadv hex ⊢
  obtain ⟨k, hk, hp, hnn, hlog, hcap, hcl, hbd, hbc⟩ := hadv
  simp only [Nat.zero_add] at hk hp hnn hlog hcap hcl hbd hbc
  have hplen : st.p.length = p.length - k := by rw [hp, List.length_drop]
  cases he : st.w.err with
  | some e =>
    refine ⟨?_, ?_, ?_, ?_, ?_, ?_, ?_, ?_⟩ <;> dsimp only
    · omega
    · rw [hlog, hnn]
    · exact hcap
    · exact hcl
    · exact hbd
    · exact hbc
    · intro h; cases h
    · exact he
  | none =>
    have hle : st.p.length ≤ st.w.Available := by
      by_contra hlt
      exact hex ⟨by omega, he⟩
    have h1 : st.nn + st.p.length = p.length := by omega
    simp only [Nat.min_eq_right hle, List.take_length]
    refine ⟨?_, ?_, ?_, ?_, ?_, ?_, ?_, ?_⟩ <;> dsimp only
    · omega
    · rw [h1, List.take_length, ← List.append_assoc, hlog, hp, List.append_assoc,
        List.take_append_drop]
    · exact hcap
    · exact hcl
    · exact hbd
    · intro h
      have := hbc h
      simp only [List.length_append, Writer.Available] at hle ⊢
      omega
    · intro _; exact h1

/-! ## Lemmas: `store.Append` -/

theorem store.Append_of_len_err (s : store) (data : List Byte) (e : Err)
    (h : (binaryWrite s.buffer s.file (u64 data.length)).err = some e) :
    s.Append data =
      ⟨{ s with buffer := (binaryWrite s.buffer s.file (u64 data.length)).w,
                file := (binaryWrite s.buffer s.file (u64 data.length)).file }, 0, 0, some e⟩ := by
  simp [store.Append, h]

theorem store.Append_of_data_err (s : store) (data : List Byte) (e : Err)
    (h1 : (binaryWrite s.buffer s.file (u64 data.length)).err = none)
    (h2 : ((binaryWrite s.buffer s.file (u64 data.length)).w.Write
      (binaryWrite s.buffer s.file (u64 data.length)).file data).err = some e) :
    s.Append data =
      ⟨{ s with
          buffer := ((binaryWrite s.buffer s.file (u64 data.length)).w.Write
            (binaryWrite s.buffer s.file (u64 data.length)).file data).w,
          file := ((binaryWrite s.buffer s.file (u64 data.length)).w.Write
            (binaryWrite s.buffer s.file (u64 data.length)).file data).file }, 0, 0, some e⟩ := by
  simp [store.Append, h1, h2]

theorem store.Append_of_ok (s : store) (data : List Byte)
    (h1 : (binaryWrite s.buffer s.file (u64 data.length)).err = none)
    (h2 : ((binaryWrite s.buffer s.file (u64 data.length)).w.Write
      (binaryWrite s.buffer s.file (u64 data.length)).file data).err = none) :
    s.Append data =
      ⟨{ file := ((binaryWrite s.buffer s.file (u64 data.length)).w.Write
            (binaryWrite s.buffer s.file (u64 data.length)).file data).file,
         buffer := ((binaryWrite s.buffer s.file (u64 data.length)).w.Write
            (binaryWrite s.buffer s.file (u64 data.length)).file data).w,
         size := u64 (s.size + u64 (((binaryWrite s.buffer s.file (u64 data.length)).w.Write
            (binaryWrite s.buffer s.file (u64 data.length)).file data).nn + width)) },
        u64 (((binaryWrite s.buffer s.file (u64 data.length)).w.Write
            (binaryWrite s.buffer s.file (u64 data.length)).file data).nn + width),
        s.size, none⟩ := by
  simp [store.Append, h1, h2]

/-- The three ways `Append` can go. -/
theorem store.Append_cases (s : store) (data : List Byte) :
    (∃ e, (binaryWrite s.buffer s.file (u64 data.length)).err = some e ∧
      (s.Append data).err = some e) ∨
    (∃ e, (binaryWrite s.buffer s.file (u64 data.length)).err = none ∧
      ((binaryWrite s.buffer s.file (u64 data.length)).w.Write
        (binaryWrite s.buffer s.file (u64 data.length)).file data).err = some e ∧
      (s.Append data).err = some e) ∨
    ((binaryWrite s.buffer s.file (u64 data.length)).err = none ∧
      ((binaryWrite s.buffer s.file (u64 data.length)).w.Write
        (binaryWrite s.buffer s.file (u64 data.length)).file data).err = none ∧
      (s.Append data).err = none) := by
  rcases Option.eq_none_or_eq_some (binaryWrite s.buffer s.file (u64 data.length)).err with
    h1 | ⟨e, h1⟩
  · rcases Option.eq_none_or_eq_some ((binaryWrite s.buffer s.file (u64 data.length)).w.Write
        (binaryWrite s.buffer s.file (u64 data.length)).file data).err with h2 | ⟨e, h2⟩
    · exact Or.inr (Or.inr ⟨h1, h2, by rw [store.Append_of_ok s data h1 h2]⟩)
    · exact Or.inr (Or.inl ⟨e, h1, h2, by rw [store.Append_of_data_err s data e h1 h2]⟩)
  · exact Or.inl ⟨e, h1, by rw [store.Append_of_len_err s data e h1]⟩

theorem store.WF.logical_lt (s : store) (h : s.WF) : s.logical.length < 2 ^ 64 := by
  have h1 := h.bound
  have h2 := h.fits
  have h3 := h.cap
  simp only [store.logical, List.length_append, maxFileSize, defaultBufSize] at *
  omega

/-- A successful `Append`, on the level of the raw results. -/
theorem store.Append_ok_raw (s : store) (data : List Byte) (h : (s.Append data).err = none) :
    (s.Append data).pos = s.size ∧
    (s.Append data).n = u64 (data.length + width) ∧
    (s.Append data).s.size = u64 (s.size + u64 (data.length + width)) ∧
    (s.Append data).s.logical = s.logical ++ encodeRecord data ∧
    (s.Append data).s.buffer.cap = s.buffer.cap ∧
    (s.Append data).s.file.closed = s.file.closed ∧
    (s.Append data).s.buffer.err = none ∧
    (s.file.content.length ≤ maxFileSize →
      (s.Append data).s.file.content.length ≤ maxFileSize) ∧
    (s.buffer.buf.length ≤ s.buffer.cap →
      (s.Append data).s.buffer.buf.length ≤ (s.Append data).s.buffer.cap) := by
  rcases store.Append_cases s data with ⟨e, _, h1⟩ | ⟨e, _, _, h1⟩ | ⟨h1, h2, _⟩
  · rw [h] at h1; cases h1
  · rw [h] at h1; cases h1
  · have w1 : Writer.WriteSpec s.buffer s.file (PutUint64 (u64 data.length))
        (binaryWrite s.buffer s.file (u64 data.length)) := Writer.Write_spec _ _ _
    have w2 := Writer.Write_spec (binaryWrite s.buffer s.file (u64 data.length)).w
      (binaryWrite s.buffer s.file (u64 data.length)).file data
    rw [store.Append_of_ok s data h1 h2]
    generalize binaryWrite s.buffer s.file (u64 data.length) = r1 at w1 w2 h1 h2 ⊢
    generalize r1.w.Write r1.file data = r2 at w2 h2 ⊢
    have n1 := w1.nn_of_ok h1
    have n2 := w2.nn_of_ok h2
    refine ⟨rfl, by simp only [n2], by simp only [n2], ?_, ?_, ?_, ?_, ?_, ?_⟩
    · simp only [store.logical, w2.logical, n2, List.take_length, w1.logical, n1,
        encodeRecord, List.append_assoc]
    · simp only [w2.cap, w1.cap]
    · simp only [w2.closed, w1.closed]
    · simp only [w2.err_eq, h2]
    · intro hb; exact w2.bound (w1.bound hb)
    · intro hb; exact w2.fits (w1.fits hb)

/-- A failing `Append` returns zeros and leaves `size` alone; the bytes it managed to
hand over stay at the end of the file and the buffer. -/
theorem store.Append_err_raw (s : store) (data : List Byte) (e : Err)
    (h : (s.Append data).err = some e) :
    (s.Append data).n = 0 ∧ (s.Append data).pos = 0 ∧ (s.Append data).s.size = s.size ∧
    (∃ k, (s.Append data).s.logical = s.logical ++ (encodeRecord data).take k) ∧
    (s.Append data).s.buffer.cap = s.buffer.cap ∧
    (s.Append data).s.file.closed = s.file.closed ∧
    (s.file.content.length ≤ maxFileSize →
      (s.Append data).s.file.content.length ≤ maxFileSize) ∧
    (s.buffer.buf.length ≤ s.buffer.cap →
      (s.Append data).s.buffer.buf.length ≤ (s.Append data).s.buffer.cap) := by
  have w1 : Writer.WriteSpec s.buffer s.file (PutUint64 (u64 data.length))
      (binaryWrite s.buffer s.file (u64 data.length)) := Writer.Write_spec _ _ _
  have w2 := Writer.Write_spec (binaryWrite s.buffer s.file (u64 data.length)).w
    (binaryWrite s.buffer s.file (u64 data.length)).file data
  rcases store.Append_cases s data with ⟨e1, h1, _⟩ | ⟨e1, h1, h2, _⟩ | ⟨_, _, h1⟩
  · rw [store.Append_of_len_err s data e1 h1]
    generalize binaryWrite s.buffer s.file (u64 data.length) = r1 at w1 w2 h1 ⊢
    refine ⟨rfl, rfl, rfl, ⟨r1.nn, ?_⟩, w1.cap, w1.closed, w1.bound, w1.fits⟩
    have hle := w1.nn_le
    simp only [store.logical, w1.logical, encodeRecord]
    rw [List.take_append_of_le_length hle, List.append_assoc]
  · rw [store.Append_of_data_err s data e1 h1 h2]
    generalize binaryWrite s.buffer s.file (u64 data.length) = r1 at w1 w2 h1 h2 ⊢
    generalize r1.w.Write r1.file data = r2 at w2 h2 ⊢
    have n1 := w1.nn_of_ok h1
    refine ⟨rfl, rfl, rfl, ⟨8 + r2.nn, ?_⟩, by simp only [w2.cap, w1.cap],
      by simp only [w2.closed, w1.closed],
      fun hb => w2.bound (w1.bound hb), fun hb => w2.fits (w1.fits hb)⟩
    simp only [store.logical, w2.logical, w1.logical, n1, List.take_length,
      encodeRecord, List.append_assoc]
    congr 2
    rw [List.take_append_eq_append_take]
    simp [PutUint64_length]
  · rw [h] at h1; cases h1

/-! ## Lemmas: the invariant -/

theorem newStore_ok (f : File) (s : store) (h : newStore f = Except.ok s) :
    s.file = f ∧ s.buffer = NewWriter ∧ s.size = u64 f.content.length := by
  unfold newStore File.Stat at h
  cases hs : f.statErr with
  | some e => simp [hs] at h
  | none =>
    simp only [hs, Except.ok.injEq] at h
    subst h
    exact ⟨rfl, rfl, rfl⟩

theorem newStore_clean (f : File) (s : store) (hc : f.closed = false)
    (hb : f.content.length ≤ maxFileSize) (h : newStore f = Except.ok s) : s.Clean := by
  obtain ⟨h1, h2, h3⟩ := newStore_ok f s h
  have hlog : s.logical = f.content := by simp [store.logical, h1, h2, NewWriter]
  have hsz : s.size = f.content.length := by
    rw [h3, u64]; apply Nat.mod_eq_of_lt; simp only [maxFileSize] at hb; omega
  exact { bound := by rw [h1]; exact hb
          fits := by simp [h2, NewWriter]
          cap := by simp [h2, NewWriter]
          isOpen := by rw [h1]; exact hc
          size_le := by rw [hlog, hsz]
          size_eq := by rw [hlog, hsz] }

/-- A successful `Append` on a well-formed store, without any wrap-around left. -/
theorem store.Append_ok (s : store) (data : List Byte) (hs : s.WF)
    (h : (s.Append data).err = none) :
    (s.Append data).pos = s.size ∧
    (s.Append data).n = 8 + data.length ∧
    (s.Append data).s.size = s.size + (8 + data.length) ∧
    (s.Append data).s.logical = s.logical ++ encodeRecord data ∧
    (s.Append data).s.buffer.err = none ∧
    (s.Append data).s.WF := by
  obtain ⟨h1, h2, h3, h4, h5, h6, h7, h8, h9⟩ := store.Append_ok_raw s data h
  have hb := h8 hs.bound
  have hf := h9 hs.fits
  have hcap : (s.Append data).s.buffer.cap = defaultBufSize := by rw [h5, hs.cap]
  have hlen : s.logical.length + (8 + data.length) < 2 ^ 64 := by
    have : (s.Append data).s.logical.length = s.logical.length + (8 + data.length) := by
      rw [h4, List.length_append, encodeRecord_length]
    rw [← this]
    simp only [store.logical, List.length_append]
    rw [hcap] at hf
    simp only [maxFileSize, defaultBufSize] at hb hf
    omega
  have hsl := hs.size_le
  have hn : u64 (data.length + width) = 8 + data.length := by
    rw [u64, width, Nat.mod_eq_of_lt (by omega)]; omega
  have hsz : (s.Append data).s.size = s.size + (8 + data.length) := by
    rw [h3, hn, u64, Nat.mod_eq_of_lt (by omega)]
  refine ⟨h1, by rw [h2, hn], hsz, h4, h7, ?_⟩
  exact { bound := hb, fits := hf, cap := hcap, isOpen := by rw [h6, hs.isOpen]
          size_le := by rw [hsz, h4, List.length_append, encodeRecord_length]; omega }

theorem store.Append_ok_clean (s : store) (data : List Byte) (hs : s.Clean)
    (h : (s.Append data).err = none) : (s.Append data).s.Clean := by
  obtain ⟨_, _, h3, h4, _, h6⟩ := store.Append_ok s data hs.toWF h
  exact { h6 with
          size_eq := by rw [h3, h4, List.length_append, encodeRecord_length, hs.size_eq] }

theorem store.Append_err_WF (s : store) (data : List Byte) (hs : s.WF) (e : Err)
    (h : (s.Append data).err = some e) : (s.Append data).s.WF := by
  obtain ⟨_, _, h3, ⟨k, h4⟩, h5, h6, h7, h8⟩ := store.Append_err_raw s data e h
  exact { bound := h7 hs.bound, fits := h8 hs.fits, cap := by rw [h5, hs.cap]
          isOpen := by rw [h6, hs.isOpen]
          size_le := by
            rw [h3, h4, List.length_append]
            exact le_trans hs.size_le (Nat.le_add_right _ _) }

theorem store.Append_WF (s : store) (data : List Byte) (hs : s.WF) : (s.Append data).s.WF := by
  rcases Option.eq_none_or_eq_some (s.Append data).err with h | ⟨e, h⟩
  · exact (store.Append_ok s data hs h).2.2.2.2.2
  · exact store.Append_err_WF s data hs e h

theorem store.flushed_logical (s : store) : s.flushed.logical = s.logical := by
  simp [store.flushed, store.logical, Writer.Flush_logical]

theorem store.flushed_size (s : store) : s.flushed.size = s.size := rfl

theorem store.flushed_WF (s : store) (hs : s.WF) : s.flushed.WF :=
  { bound := Writer.Flush_bound _ _ hs.bound
    fits := by
      show (s.buffer.Flush s.file).w.buf.length ≤ (s.buffer.Flush s.file).w.cap
      rw [Writer.Flush_cap]
      exact le_trans (Writer.Flush_buf_le _ _) hs.fits
    cap := by
      show (s.buffer.Flush s.file).w.cap = defaultBufSize
      rw [Writer.Flush_cap, hs.cap]
    isOpen := by
      show (s.buffer.Flush s.file).file.closed = false
      rw [Writer.Flush_closed, hs.isOpen]
    size_le := by rw [store.flushed_logical]; exact hs.size_le }

theorem store.flushed_clean (s : store) (hs : s.Clean) : s.flushed.Clean :=
  { store.flushed_WF s hs.toWF with
    size_eq := by rw [store.flushed_logical]; exact hs.size_eq }

theorem store.Read_state (s : store) (pos : Nat) : (s.Read pos).1 = s.flushed := by
  unfold store.Read store.flushed
  simp only
  split
  · rfl
  · split
    · rfl
    · split
      · rfl
      · split <;> rfl

theorem store.ReadAt_state (s : store) (data : List Byte) (off : Int) :
    (s.ReadAt data off).s = s.flushed := by
  unfold store.ReadAt store.flushed
  simp only
  split <;> rfl

theorem store.flushed_file_of_ok (s : store) (h : (s.buffer.Flush s.file).err = none) :
    s.flushed.file.content = s.logical ∧ s.flushed.buffer.buf = [] ∧
      s.flushed.buffer.err = none := by
  have h1 := Writer.Flush_buf_of_ok _ _ h
  have h2 := Writer.Flush_logical s.buffer s.file
  rw [h1, List.append_nil] at h2
  exact ⟨h2, h1, by
    show (s.buffer.Flush s.file).w.err = none
    rw [Writer.Flush_err_eq, h]⟩

/-! ## Lemmas: reading -/

theorem toInt64_of_lt (x : Nat) (h : x < 2 ^ 63) : toInt64 x = (x : Int) := by
  have h1 : u64 x = x := Nat.mod_eq_of_lt (by omega)
  unfold toInt64
  rw [h1, if_pos h]

/-- A positional read of exactly the bytes `X` that sit in the file after `A`. -/
theorem File.ReadAt_window (f : File) (A X B : List Byte) (hc : f.closed = false)
    (hb : f.content.length ≤ maxFileSize)
    (h : f.content = A ++ X ++ B) : f.ReadAt X.length (A.length : Int) = (X, none) := by
  have hin : A.length + X.length ≤ maxFileSize := by
    rw [h] at hb
    simp only [List.length_append] at hb
    omega
  unfold File.ReadAt
  rw [if_neg (by omega)]
  by_cases hx : X.length = 0
  · rw [if_pos hx]
    rw [List.length_eq_zero.mp hx]
  · rw [if_neg hx, if_neg (by simp [hc]), if_neg (by rw [Int.toNat_ofNat]; omega)]
    have hgot : (f.content.drop (A.length : Int).toNat).take X.length = X := by
      rw [h, Int.toNat_ofNat, List.append_assoc, List.drop_left, List.take_left]
    simp only [hgot, lt_self_iff_false, if_false]

/-- Reading at the start of a record whose bytes are in the file or the buffer gives back
its payload, provided the flush goes through. -/
theorem store.Read_of_record (s : store) (A p B : List Byte) (hopen : s.file.closed = false)
    (hbound : s.file.content.length ≤ maxFileSize)
    (hfl : (s.buffer.Flush s.file).err = none)
    (hlog : s.logical = A ++ encodeRecord p ++ B) (hp : p.length ≤ maxAlloc) :
    (s.Read A.length).2 = Outcome.ok p := by
  have hcont : (s.buffer.Flush s.file).file.content = A ++ encodeRecord p ++ B := by
    rw [← hlog]; exact (store.flushed_file_of_ok s hfl).1
  have hcl : (s.buffer.Flush s.file).file.closed = false := by
    rw [Writer.Flush_closed, hopen]
  have hlen : A.length + 8 + p.length ≤ maxFileSize := by
    have := Writer.Flush_bound s.buffer s.file hbound
    rw [hcont] at this
    simp only [List.length_append, encodeRecord_length] at this
    omega
  have hpl : u64 p.length = p.length := by
    apply Nat.mod_eq_of_lt; simp only [maxAlloc] at hp; omega
  have hoff1 : toInt64 A.length = (A.length : Int) :=
    toInt64_of_lt _ (by simp only [maxFileSize] at hlen; omega)
  have hoff2 : toInt64 (u64 (A.length + width)) =
      ((A ++ PutUint64 (u64 p.length)).length : Int) := by
    have : u64 (A.length + width) = A.length + 8 := by
      rw [width]; apply Nat.mod_eq_of_lt; simp only [maxFileSize] at hlen; omega
    rw [this, toInt64_of_lt _ (by simp only [maxFileSize] at hlen; omega),
      List.length_append, PutUint64_length]
  have hfb : (s.buffer.Flush s.file).file.content.length ≤ maxFileSize :=
    Writer.Flush_bound s.buffer s.file hbound
  have hr1 : (s.buffer.Flush s.file).file.ReadAt width (toInt64 A.length) =
      (PutUint64 (u64 p.length), none) := by
    rw [hoff1]
    have := File.ReadAt_window (s.buffer.Flush s.file).file A (PutUint64 (u64 p.length)) (p ++ B)
      hcl hfb (by rw [hcont, encodeRecord]; simp only [List.append_assoc])
    rw [PutUint64_length] at this
    exact this
  have hu : Uint64 (PutUint64 (u64 p.length)) = p.length := by
    rw [hpl]; exact Uint64_PutUint64 _ (by simp only [maxAlloc] at hp; omega)
  have hr2 : (s.buffer.Flush s.file).file.ReadAt p.length (toInt64 (u64 (A.length + width))) =
      (p, none) := by
    rw [hoff2]
    exact File.ReadAt_window (s.buffer.Flush s.file).file (A ++ PutUint64 (u64 p.length)) p B
      hcl hfb (by rw [hcont, encodeRecord]; simp only [List.append_assoc])
  simp only [store.Read, hfl, hr1, hu, hr2, Nat.not_lt.mpr hp, if_false]

/-! ## Lemmas: sequences of calls -/

theorem store.step_WF (s : store) (op : Op) (hs : s.WF) : (s.step op).1.WF := by
  cases op with
  | append data => exact store.Append_WF s data hs
  | read pos =>
    show (s.Read pos).1.WF
    rw [store.Read_state]; exact store.flushed_WF s hs
  | readAt data off =>
    show (s.ReadAt data off).s.WF
    rw [store.ReadAt_state]; exact store.flushed_WF s hs

theorem store.run_WF (ops : List Op) : ∀ s : store, s.WF → (s.run ops).WF := by
  induction ops with
  | nil => intro s hs; exact hs
  | cons op ops ih => intro s hs; exact ih _ (store.step_WF s op hs)

theorem store.step_append_ok (s : store) (data : List Byte)
    (h : (s.step (Op.append data)).2.appendOk = true) : (s.Append data).err = none := by
  rcases Option.eq_none_or_eq_some (s.Append data).err with h1 | ⟨e, h1⟩
  · exact h1
  · simp [store.step, h1, Res.appendOk] at h

theorem store.step_append_res (s : store) (data : List Byte) (h : (s.Append data).err = none) :
    (s.step (Op.append data)).2 = Res.appended (s.Append data).n (s.Append data).pos := by
  simp [store.step, h]

/-- The effect of a sequence of calls none of which is a failed `Append`. -/
theorem store.run_spec (ops : List Op) : ∀ s : store, s.WF →
    (∀ r ∈ s.results ops, r.appendOk = true) →
    (s.run ops).logical = s.logical ++ encodeAll (payloads ops) ∧
    (s.run ops).size = s.size + totalBytes (payloads ops) ∧
    positions (s.results ops) = expectedPositions s.size (payloads ops) := by
  induction ops with
  | nil => intro s _ _; simp [store.run, store.results, payloads, encodeAll, totalBytes,
      positions, expectedPositions]
  | cons op ops ih =>
    intro s hs hok
    have hok1 : (s.step op).2.appendOk = true := hok _ (by simp [store.results])
    have hok2 : ∀ r ∈ (s.step op).1.results ops, r.appendOk = true :=
      fun r hr => hok r (by simp [store.results, hr])
    obtain ⟨i1, i2, i3⟩ := ih (s.step op).1 (store.step_WF s op hs) hok2
    cases op with
    | append data =>
      have herr := store.step_append_ok s data hok1
      obtain ⟨a1, _, a3, a4, _, _⟩ := store.Append_ok s data hs herr
      have hst : (s.step (Op.append data)).1 = (s.Append data).s := rfl
      rw [hst] at i1 i2 i3
      refine ⟨?_, ?_, ?_⟩
      · simp only [store.run, hst, i1, a4, payloads, List.filterMap_cons, Op.payload, encodeAll,
          List.append_assoc]
      · simp only [store.run, hst, i2, a3, payloads, List.filterMap_cons, Op.payload, totalBytes,
          List.map_cons, List.sum_cons]
        omega
      · simp only [store.results, positions, List.filterMap_cons,
          store.step_append_res s data herr, Res.position, payloads, Op.payload,
          expectedPositions, hst, a1]
        rw [← a3]
        exact congrArg _ i3
    | read pos =>
      have hst : (s.step (Op.read pos)).1 = s.flushed := store.Read_state s pos
      simp only [hst, store.flushed_logical, store.flushed_size] at i1 i2 i3
      exact ⟨by simp only [store.run, hst, i1, payloads, List.filterMap_cons, Op.payload],
        by simp only [store.run, hst, i2, payloads, List.filterMap_cons, Op.payload],
        by
          simp only [store.results, positions, List.filterMap_cons, payloads, Op.payload, hst]
          simp only [store.step, Res.position]
          exact i3⟩
    | readAt data off =>
      have hst : (s.step (Op.readAt data off)).1 = s.flushed := store.ReadAt_state s data off
      simp only [hst, store.flushed_logical, store.flushed_size] at i1 i2 i3
      exact ⟨by simp only [store.run, hst, i1, payloads, List.filterMap_cons, Op.payload],
        by simp only [store.run, hst, i2, payloads, List.filterMap_cons, Op.payload],
        by
          simp only [store.results, positions, List.filterMap_cons, payloads, Op.payload, hst]
          simp only [store.step, Res.position]
          exact i3⟩

theorem Res.appendOk_of_isOk (r : Res) (h : r.isOk = true) : r.appendOk = true := by
  cases r <;> simp_all [Res.isOk, Res.appendOk]

theorem encodeAll_length (ps : List (List Byte)) : (encodeAll ps).length = totalBytes ps := by
  induction ps with
  | nil => rfl
  | cons p ps ih =>
    simp only [encodeAll, List.length_append, encodeRecord_length, ih, totalBytes, List.map_cons,
      List.sum_cons]

theorem payloads_map_append (ps : List (List Byte)) : payloads (ps.map Op.append) = ps := by
  induction ps with
  | nil => rfl
  | cons p ps ih =>
    simp only [payloads, List.map_cons, List.filterMap_cons, Op.payload] at ih ⊢
    rw [ih]

theorem Fresh.clean {f : File} {s0 : store} (h : Fresh f s0) : s0.Clean :=
  newStore_clean f s0 h.1 h.2.1 h.2.2

theorem Fresh.size_eq {f : File} {s0 : store} (h : Fresh f s0) : s0.size = f.content.length := by
  obtain ⟨h1, _, h3⟩ := newStore_ok f s0 h.2.2
  have := h.clean.size_eq
  rw [this, store.logical, h1]
  obtain ⟨_, h2, _⟩ := newStore_ok f s0 h.2.2
  simp [h2, NewWriter]

theorem Fresh.logical_eq {f : File} {s0 : store} (h : Fresh f s0) : s0.logical = f.content := by
  obtain ⟨h1, h2, _⟩ := newStore_ok f s0 h.2.2
  simp [store.logical, h1, h2, NewWriter]

theorem store.run_clean (ops : List Op) (s : store) (hs : s.Clean)
    (hok : ∀ r ∈ s.results ops, r.appendOk = true) : (s.run ops).Clean :=
  { store.run_WF ops s hs.toWF with
    size_eq := by
      obtain ⟨h1, h2, _⟩ := store.run_spec ops s hs.toWF hok
      rw [h1, h2, List.length_append, encodeAll_length, hs.size_eq] }

theorem store.step_err_none (s : store) (op : Op) (h : (s.step op).2.isOk = true) :
    (s.step op).1.buffer.err = none := by
  cases op with
  | append data =>
    have herr := store.step_append_ok s data (Res.appendOk_of_isOk _ h)
    exact (store.Append_ok_raw s data herr).2.2.2.2.2.2.1
  | read pos =>
    show (s.Read pos).1.buffer.err = none
    rw [store.Read_state]
    rcases Option.eq_none_or_eq_some (s.buffer.Flush s.file).err with h1 | ⟨e, h1⟩
    · exact (store.flushed_file_of_ok s h1).2.2
    · simp [store.step, store.Read, h1, Res.isOk] at h
  | readAt data off =>
    show (s.ReadAt data off).s.buffer.err = none
    rw [store.ReadAt_state]
    rcases Option.eq_none_or_eq_some (s.buffer.Flush s.file).err with h1 | ⟨e, h1⟩
    · exact (store.flushed_file_of_ok s h1).2.2
    · simp [store.step, store.ReadAt, h1, Res.isOk] at h

theorem store.run_err_none (ops : List Op) : ∀ s : store, s.buffer.err = none →
    (∀ r ∈ s.results ops, r.isOk = true) → (s.run ops).buffer.err = none := by
  induction ops with
  | nil => intro s h _; exact h
  | cons op ops ih =>
    intro s _ hok
    exact ih _ (store.step_err_none s op (hok _ (by simp [store.results])))
      (fun r hr => hok r (by simp [store.results, hr]))

theorem store.flush_ok_of_flushable (s : store) (hs : s.WF) (he : s.buffer.err = none)
    (hio : s.flushable) : (s.buffer.Flush s.file).err = none :=
  Writer.Flush_ok s.buffer s.file he hs.isOpen hio.1
    (by have := hio.2; simpa [store.logical] using this)

/-! ## Lemmas: a failed write is final -/

theorem Writer.Write_of_err (b : Writer) (f : File) (p : List Byte) (e : Err)
    (h : b.err = some e) : b.Write f p = ⟨b, f, 0, some e⟩ := by
  have hstop : ¬ ((⟨b, f, p, 0⟩ : LoopSt).p.length > (⟨b, f, p, 0⟩ : LoopSt).w.Available ∧
      (⟨b, f, p, 0⟩ : LoopSt).w.err = none) := by
    rintro ⟨_, h2⟩
    simp only [h] at h2
    cases h2
  simp only [Writer.Write, Writer.writeLoop_of_not_cond _ _ hstop, h]

theorem store.Append_of_sticky (s : store) (data : List Byte) (e : Err)
    (h : s.buffer.err = some e) : s.Append data = ⟨s, 0, 0, some e⟩ := by
  have hw : binaryWrite s.buffer s.file (u64 data.length) = ⟨s.buffer, s.file, 0, some e⟩ :=
    Writer.Write_of_err _ _ _ e h
  rw [store.Append_of_len_err s data e (by rw [hw]), hw]

theorem store.flushed_of_sticky (s : store) (e : Err) (h : s.buffer.err = some e) :
    s.flushed = s := by
  simp only [store.flushed, Writer.Flush_of_err s.buffer s.file e h]

theorem store.step_of_sticky (s : store) (op : Op) (e : Err) (h : s.buffer.err = some e) :
    (s.step op).1 = s := by
  cases op with
  | append data =>
    show (s.Append data).s = s
    rw [store.Append_of_sticky s data e h]
  | read pos =>
    show (s.Read pos).1 = s
    rw [store.Read_state, store.flushed_of_sticky s e h]
  | readAt data off =>
    show (s.ReadAt data off).s = s
    rw [store.ReadAt_state, store.flushed_of_sticky s e h]

theorem store.run_of_sticky (ops : List Op) (s : store) (e : Err) (h : s.buffer.err = some e) :
    s.run ops = s := by
  induction ops with
  | nil => rfl
  | cons op ops ih => rw [store.run, store.step_of_sticky s op e h, ih]

theorem store.Append_err_sticks (s : store) (data : List Byte) (e : Err)
    (h : (s.Append data).err = some e) : ∃ e1, (s.Append data).s.buffer.err = some e1 := by
  have w1 : Writer.WriteSpec s.buffer s.file (PutUint64 (u64 data.length))
      (binaryWrite s.buffer s.file (u64 data.length)) := Writer.Write_spec _ _ _
  have w2 := Writer.Write_spec (binaryWrite s.buffer s.file (u64 data.length)).w
    (binaryWrite s.buffer s.file (u64 data.length)).file data
  rcases store.Append_cases s data with ⟨e1, h1, _⟩ | ⟨e1, h1, h2, _⟩ | ⟨_, _, h1⟩
  · rw [store.Append_of_len_err s data e1 h1]
    exact ⟨e1, by rw [← h1]; exact w1.err_eq⟩
  · rw [store.Append_of_data_err s data e1 h1 h2]
    exact ⟨e1, by rw [← h2]; exact w2.err_eq⟩
  · rw [h] at h1; cases h1

/-- A store whose writer holds no error has never seen an `Append` fail. -/
theorem store.run_appendOk_of_err_none (ops : List Op) : ∀ s : store,
    (s.run ops).buffer.err = none → ∀ r ∈ s.results ops, r.appendOk = true := by
  induction ops with
  | nil => intro s _ r hr; simp [store.results] at hr
  | cons op ops ih =>
    intro s h r hr
    simp only [store.results, List.mem_cons] at hr
    rcases hr with hr | hr
    · subst hr
      cases op with
      | append data =>
        rcases Option.eq_none_or_eq_some (s.Append data).err with h1 | ⟨e, h1⟩
        · rw [store.step_append_res s data h1]; rfl
        · obtain ⟨e1, h2⟩ := store.Append_err_sticks s data e h1
          have h3 : ((s.Append data).s.run ops).buffer.err = none := h
          rw [store.run_of_sticky ops _ e1 h2] at h3
          rw [h3] at h2
          cases h2
      | read pos => rfl
      | readAt data off => rfl
    · exact ih _ h r hr

theorem store.err_none_of_append_ok (s : store) (data : List Byte)
    (h : (s.Append data).err = none) : s.buffer.err = none := by
  rcases Option.eq_none_or_eq_some s.buffer.err with h1 | ⟨e, h1⟩
  · exact h1
  · rw [store.Append_of_sticky s data e h1] at h
    cases h

/-- A write that has to flush a filled buffer while the device fails at once: the error
comes back after the bytes that filled the buffer have been taken. -/
theorem Writer.Write_fill_fault (b : Writer) (f : File) (p : List Byte) (k : Nat)
    (rest : List (Option Nat)) (he : b.err = none) (hb : b.buf ≠ [])
    (hp : p.length > b.Available) (hc : f.closed = false) (hf : f.faults = some k :: rest) :
    (b.Write f p).err = some Err.device ∧ (b.Write f p).nn = min b.Available p.length := by
  have hcond : (⟨b, f, p, 0⟩ : LoopSt).p.length > (⟨b, f, p, 0⟩ : LoopSt).w.Available ∧
      (⟨b, f, p, 0⟩ : LoopSt).w.err = none := ⟨hp, he⟩
  have hbuf : ¬ (⟨b, f, p, 0⟩ : LoopSt).w.Buffered = 0 := by
    simp only [Writer.Buffered]
    intro h0
    exact hb (List.length_eq_zero.mp h0)
  have hwerr : (f.Write (b.buf ++ p.take (min b.Available p.length))).err = some Err.device := by
    simp [File.Write, hc, hf]
  have hflush := Writer.Flush_of_write_err
    ({ b with buf := b.buf ++ p.take (min b.Available p.length) } : Writer) f Err.device he
    (by simp [hb]) hwerr
  have hfill_err : (Writer.writeFill ⟨b, f, p, 0⟩).w.err = some Err.device := by
    simp only [Writer.writeFill, hflush]
  have hfill_nn : (Writer.writeFill ⟨b, f, p, 0⟩).nn = min b.Available p.length := by
    simp only [Writer.writeFill, Nat.zero_add]
  have hstop : ¬ ((Writer.writeFill ⟨b, f, p, 0⟩).p.length >
      (Writer.writeFill ⟨b, f, p, 0⟩).w.Available ∧
      (Writer.writeFill ⟨b, f, p, 0⟩).w.err = none) := by
    rintro ⟨_, h2⟩
    rw [hfill_err] at h2
    cases h2
  have hloop : Writer.writeLoop (p.length + 2) ⟨b, f, p, 0⟩ = Writer.writeFill ⟨b, f, p, 0⟩ := by
    rw [Writer.writeLoop, if_pos hcond, if_neg hbuf, Writer.writeLoop_of_not_cond _ _ hstop]
  simp only [Writer.Write, hloop, hfill_err, hfill_nn, and_self]

/-! ## Lemmas: where the records lie -/

/-- Each record of a back-to-back sequence laid after `pre` starts at its expected
position. -/
theorem expectedPositions_split (ps : List (List Byte)) : ∀ (start : Nat) (pre : List Byte),
    pre.length = start → ∀ x ∈ List.zip (expectedPositions start ps) ps,
    ∃ A B, pre ++ encodeAll ps = A ++ encodeRecord x.2 ++ B ∧ A.length = x.1 := by
  induction ps with
  | nil => intro start pre _ x hx; simp [expectedPositions] at hx
  | cons p ps ih =>
    intro start pre hpre x hx
    simp only [expectedPositions, List.zip_cons_cons, List.mem_cons] at hx
    rcases hx with hx | hx
    · subst hx
      exact ⟨pre, encodeAll ps, by simp only [encodeAll, List.append_assoc], hpre⟩
    · obtain ⟨A, B, h1, h2⟩ := ih (start + (8 + p.length)) (pre ++ encodeRecord p)
        (by rw [List.length_append, encodeRecord_length, hpre]) x hx
      exact ⟨A, B, by rw [← h1]; simp only [encodeAll, List.append_assoc], h2⟩

theorem expectedPositions_length (ps : List (List Byte)) :
    ∀ start : Nat, (expectedPositions start ps).length = ps.length := by
  induction ps with
  | nil => intro _; rfl
  | cons p ps ih => intro start; simp only [expectedPositions, List.length_cons, ih]

theorem expectedPositions_head (ps : List (List Byte)) (start a : Nat)
    (h : (expectedPositions start ps)[0]? = some a) : a = start := by
  cases ps with
  | nil => simp [expectedPositions] at h
  | cons p ps => simp [expectedPositions] at h; exact h.symm

theorem expectedPositions_next (ps : List (List Byte)) :
    ∀ (start i a b : Nat) (p : List Byte), (expectedPositions start ps)[i]? = some a →
      (expectedPositions start ps)[i + 1]? = some b → ps[i]? = some p →
      b = a + (8 + p.length) := by
  induction ps with
  | nil => intro start i a b p h; simp [expectedPositions] at h
  | cons q qs ih =>
    intro start i a b p ha hb hp
    cases i with
    | zero =>
      simp only [expectedPositions, List.getElem?_cons_zero, Option.some.injEq] at ha hp
      simp only [expectedPositions, Nat.zero_add, List.getElem?_cons_succ] at hb
      have := expectedPositions_head qs _ b hb
      rw [this, ← ha, ← hp]
    | succ j =>
      simp only [expectedPositions, List.getElem?_cons_succ] at ha hb hp
      exact ih _ j a b p ha hb hp

theorem store.flushed_of_empty (s : store) (he : s.buffer.err = none) (hb : s.buffer.buf = []) :
    s.flushed = s := by
  simp only [store.flushed, Writer.Flush_of_empty s.buffer s.file he hb]

/-! ## Lemmas: what `Read` does at an arbitrary position -/

theorem File.ReadAt_open (f : File) (len off : Nat) (hc : f.closed = false) (hl : len ≠ 0)
    (hb : off + len ≤ maxFileSize) :
    f.ReadAt len (off : Int) = ((f.content.drop off).take len,
      if ((f.content.drop off).take len).length < len then some Err.eof else none) := by
  unfold File.ReadAt
  rw [if_neg (by omega), if_neg hl, if_neg (by simp [hc]),
    if_neg (by rw [Int.toNat_ofNat]; omega)]
  simp only [Int.toNat_ofNat]

theorem File.ReadAt_beyond (f : File) (len off : Nat) (hc : f.closed = false) (hl : len ≠ 0)
    (hb : maxFileSize < off + len) :
    f.ReadAt len (off : Int) = ([], some Err.invalidArgument) := by
  unfold File.ReadAt
  rw [if_neg (by omega), if_neg hl, if_neg (by simp [hc]),
    if_pos (by rw [Int.toNat_ofNat]; omega)]

theorem store.Read_of_flush_err (s : store) (pos : Nat) (e : Err)
    (h : (s.buffer.Flush s.file).err = some e) : (s.Read pos).2 = Outcome.error e := by
  simp only [store.Read, h]

/-- With a memory that never runs out, `ReadMem` is `Read`. -/
theorem store.ReadMem_enough (s : store) (pos : Nat) :
    s.ReadMem (fun _ => true) pos = s.Read pos := by
  simp [store.ReadMem, store.Read]

/-- Fewer than eight bytes from `pos` on: `Read` returns an error, before any allocation. -/
theorem store.ReadMem_short_len (mem : Nat → Bool) (s : store) (pos : Nat)
    (hopen : s.file.closed = false)
    (hfl : (s.buffer.Flush s.file).err = none) (hpos : pos < 2 ^ 64)
    (hshort : s.logical.length < pos + 8) :
    ∃ e, (s.ReadMem mem pos).2 = Outcome.error e := by
  have hcont : (s.buffer.Flush s.file).file.content = s.logical :=
    (store.flushed_file_of_ok s hfl).1
  have hcl : (s.buffer.Flush s.file).file.closed = false := by
    rw [Writer.Flush_closed, hopen]
  by_cases h63 : pos < 2 ^ 63
  · by_cases hin : pos + 8 ≤ maxFileSize
    · have hr1 : (s.buffer.Flush s.file).file.ReadAt width (toInt64 pos) =
          ((s.logical.drop pos).take 8, some Err.eof) := by
        rw [toInt64_of_lt pos h63, width, File.ReadAt_open _ _ _ hcl (by decide) hin, hcont]
        rw [if_pos (by simp only [List.length_take, List.length_drop]; omega)]
      exact ⟨Err.eof, by simp only [store.ReadMem, hfl, hr1]⟩
    · have hr1 : (s.buffer.Flush s.file).file.ReadAt width (toInt64 pos) =
          ([], some Err.invalidArgument) := by
        rw [toInt64_of_lt pos h63, width, File.ReadAt_beyond _ _ _ hcl (by decide) (by omega)]
      exact ⟨Err.invalidArgument, by simp only [store.ReadMem, hfl, hr1]⟩
  · have hu : u64 pos = pos := Nat.mod_eq_of_lt hpos
    have hneg : toInt64 pos < 0 := by
      unfold toInt64
      rw [hu, if_neg h63]
      omega
    have hr1 : (s.buffer.Flush s.file).file.ReadAt width (toInt64 pos) =
        ([], some Err.negativeOffset) := by
      unfold File.ReadAt
      rw [if_pos hneg]
    exact ⟨Err.negativeOffset, by simp only [store.ReadMem, hfl, hr1]⟩

/-- The first of the two reads of `Read`, when eight bytes are there. -/
theorem store.Read_len_read (s : store) (pos : Nat) (hopen : s.file.closed = false)
    (hbound : s.file.content.length ≤ maxFileSize)
    (hfl : (s.buffer.Flush s.file).err = none) (hlen : pos + 8 ≤ s.logical.length) :
    (s.buffer.Flush s.file).file.ReadAt width (toInt64 pos) = ((s.logical.drop pos).take 8, none)
    ∧ s.logical.length ≤ maxFileSize := by
  have hcont : (s.buffer.Flush s.file).file.content = s.logical :=
    (store.flushed_file_of_ok s hfl).1
  have hcl : (s.buffer.Flush s.file).file.closed = false := by
    rw [Writer.Flush_closed, hopen]
  have hmax : s.logical.length ≤ maxFileSize := by
    rw [← hcont]; exact Writer.Flush_bound _ _ hbound
  refine ⟨?_, hmax⟩
  rw [toInt64_of_lt pos (by simp only [maxFileSize] at hmax; omega), width,
    File.ReadAt_open _ _ _ hcl (by decide) (by omega), hcont]
  rw [if_neg (by simp only [List.length_take, List.length_drop]; omega)]

theorem store.Read_off2 (pos : Nat) (h : pos + 8 ≤ maxFileSize) :
    toInt64 (u64 (pos + width)) = ((pos + 8 : Nat) : Int) := by
  have : u64 (pos + width) = pos + 8 := by
    rw [width]; apply Nat.mod_eq_of_lt; simp only [maxFileSize] at h; omega
  rw [this, toInt64_of_lt _ (by simp only [maxFileSize] at h; omega)]

/-- Eight bytes are there, `make` finds the memory for the length they announce, but
fewer bytes follow them: `Read` returns the error of the second read, `io.EOF`, or
`EINVAL` when the announced range passes the largest file offset. -/
theorem store.ReadMem_short_data (mem : Nat → Bool) (s : store) (pos : Nat)
    (hopen : s.file.closed = false) (hbound : s.file.content.length ≤ maxFileSize)
    (hfl : (s.buffer.Flush s.file).err = none) (hlen : pos + 8 ≤ s.logical.length)
    (hL : Uint64 ((s.logical.drop pos).take 8) ≤ maxAlloc)
    (hmem : mem (Uint64 ((s.logical.drop pos).take 8)) = true)
    (hshort : s.logical.length < pos + 8 + Uint64 ((s.logical.drop pos).take 8)) :
    (s.ReadMem mem pos).2 = Outcome.error
      (if pos + 8 + Uint64 ((s.logical.drop pos).take 8) ≤ maxFileSize then Err.eof
        else Err.invalidArgument) := by
  obtain ⟨hr1, hmax⟩ := store.Read_len_read s pos hopen hbound hfl hlen
  have hcont : (s.buffer.Flush s.file).file.content = s.logical :=
    (store.flushed_file_of_ok s hfl).1
  have hcl : (s.buffer.Flush s.file).file.closed = false := by
    rw [Writer.Flush_closed, hopen]
  by_cases hin : pos + 8 + Uint64 ((s.logical.drop pos).take 8) ≤ maxFileSize
  · have hr2 : (s.buffer.Flush s.file).file.ReadAt (Uint64 ((s.logical.drop pos).take 8))
        (toInt64 (u64 (pos + width))) =
        ((s.logical.drop (pos + 8)).take (Uint64 ((s.logical.drop pos).take 8)),
          some Err.eof) := by
      rw [store.Read_off2 pos (by omega), File.ReadAt_open _ _ _ hcl (by omega) hin, hcont]
      rw [if_pos (by simp only [List.length_take, List.length_drop]; omega)]
    simp only [store.ReadMem, hfl, hr1, hr2, Nat.not_lt.mpr hL, hmem, if_false, if_pos hin]
    simp
  · have hr2 : (s.buffer.Flush s.file).file.ReadAt (Uint64 ((s.logical.drop pos).take 8))
        (toInt64 (u64 (pos + width))) = ([], some Err.invalidArgument) := by
      rw [store.Read_off2 pos (by omega), File.ReadAt_beyond _ _ _ hcl (by omega) (by omega)]
    simp only [store.ReadMem, hfl, hr1, hr2, Nat.not_lt.mpr hL, hmem, if_false, if_neg hin]
    simp

/-- Eight bytes are there, `make` finds the memory for the length they announce, and as
many bytes follow them: `Read` returns those bytes, whatever the position is. -/
theorem store.ReadMem_full (mem : Nat → Bool) (s : store) (pos : Nat)
    (hopen : s.file.closed = false) (hbound : s.file.content.length ≤ maxFileSize)
    (hfl : (s.buffer.Flush s.file).err = none)
    (hL : Uint64 ((s.logical.drop pos).take 8) ≤ maxAlloc)
    (hmem : mem (Uint64 ((s.logical.drop pos).take 8)) = true)
    (hfull : pos + 8 + Uint64 ((s.logical.drop pos).take 8) ≤ s.logical.length) :
    (s.ReadMem mem pos).2 = Outcome.ok
      ((s.logical.drop (pos + 8)).take (Uint64 ((s.logical.drop pos).take 8))) := by
  obtain ⟨hr1, hmax⟩ := store.Read_len_read s pos hopen hbound hfl (by omega)
  have hcont : (s.buffer.Flush s.file).file.content = s.logical :=
    (store.flushed_file_of_ok s hfl).1
  have hcl : (s.buffer.Flush s.file).file.closed = false := by
    rw [Writer.Flush_closed, hopen]
  have hr2 : (s.buffer.Flush s.file).file.ReadAt (Uint64 ((s.logical.drop pos).take 8))
      (toInt64 (u64 (pos + width))) =
      ((s.logical.drop (pos + 8)).take (Uint64 ((s.logical.drop pos).take 8)), none) := by
    rw [store.Read_off2 pos (by omega)]
    by_cases h0 : Uint64 ((s.logical.drop pos).take 8) = 0
    · rw [h0]
      unfold File.ReadAt
      rw [if_neg (by omega), if_pos rfl, List.take_zero]
    · rw [File.ReadAt_open _ _ _ hcl h0 (by omega), hcont]
      rw [if_neg (by simp only [List.length_take, List.length_drop]; omega)]
  simp only [store.ReadMem, hfl, hr1, hr2, Nat.not_lt.mpr hL, hmem, if_false]
  simp

/-! ## Lemmas: what a flush changes -/

theorem File.Write_statErr (f : File) (p : List Byte) : (f.Write p).file.statErr = f.statErr := by
  unfold File.Write
  split
  · rfl
  · split <;> rfl

theorem Writer.Flush_statErr (b : Writer) (f : File) :
    (b.Flush f).file.statErr = f.statErr := by
  rcases Writer.Flush_cases b f with ⟨e, _, h⟩ | ⟨_, _, h⟩ | ⟨_, _, _, h⟩ | ⟨e, _, _, _, h⟩ <;>
    rw [h] <;> simp [File.Write_statErr]

theorem Writer.err_none_of_Flush_ok (b : Writer) (f : File) (h : (b.Flush f).err = none) :
    b.err = none := by
  rcases Option.eq_none_or_eq_some b.err with h1 | ⟨e, h1⟩
  · exact h1
  · rw [Writer.Flush_of_err b f e h1] at h
    cases h

theorem store.flushed_onlyFlushed (s : store) (h : (s.buffer.Flush s.file).err = none) :
    s.OnlyFlushed s.flushed := by
  obtain ⟨h1, h2, h3⟩ := store.flushed_file_of_ok s h
  exact ⟨rfl, store.flushed_logical s, h1, h2, Writer.Flush_cap _ _,
    by rw [h3, Writer.err_none_of_Flush_ok _ _ h], Writer.Flush_closed _ _,
    Writer.Flush_statErr _ _⟩

theorem store.flush_ok_of_Read_ok (s : store) (pos : Nat) (p : List Byte)
    (h : (s.Read pos).2 = Outcome.ok p) : (s.buffer.Flush s.file).err = none := by
  rcases Option.eq_none_or_eq_some (s.buffer.Flush s.file).err with h1 | ⟨e, h1⟩
  · exact h1
  · rw [store.Read_of_flush_err s pos e h1] at h
    cases h

theorem store.flush_ok_of_ReadAt_ok (s : store) (data : List Byte) (off : Int)
    (h : (s.ReadAt data off).err = none) : (s.buffer.Flush s.file).err = none := by
  rcases Option.eq_none_or_eq_some (s.buffer.Flush s.file).err with h1 | ⟨e, h1⟩
  · exact h1
  · simp [store.ReadAt, h1] at h

/-! ## Lemmas: the in-memory log -/

theorem Log.Append_records (c : Log) (r : Record) :
    (c.Append r).1.records = c.records ++ [⟨r.Value, u64 c.records.length⟩] := rfl

theorem Log.appendAll_records (rs : List Record) : ∀ c : Log,
    ∃ tail, (c.appendAll rs).records = c.records ++ tail ∧ tail.length = rs.length := by
  induction rs with
  | nil => intro c; exact ⟨[], by simp [Log.appendAll]⟩
  | cons r rs ih =>
    intro c
    obtain ⟨tail, h1, h2⟩ := ih (c.Append r).1
    refine ⟨⟨r.Value, u64 c.records.length⟩ :: tail, ?_, by simp [h2]⟩
    rw [Log.appendAll, h1, Log.Append_records, List.append_assoc, List.singleton_append]

theorem Log.appendAll_length (rs : List Record) (c : Log) :
    (c.appendAll rs).records.length = c.records.length + rs.length := by
  obtain ⟨tail, h1, h2⟩ := Log.appendAll_records rs c
  rw [h1, List.length_append, h2]

theorem Log.Read_of_lt (c : Log) (offset : Nat) (r : Record)
    (hlt : offset < u64 c.records.length) (hr : c.records[offset]? = some r) :
    c.Read offset = some (r, none) := by
  unfold Log.Read
  rw [if_neg (by omega)]
  simp only [hr]

theorem Log.Read_of_ge (c : Log) (offset : Nat) (hge : u64 c.records.length ≤ offset) :
    c.Read offset = some (⟨[], 0⟩, some ErrOffsetNotFound) := by
  unfold Log.Read
  rw [if_pos hge]

theorem u64_le (n : Nat) : u64 n ≤ n := Nat.mod_le _ _

/-! ## The claims -/

/-- C1. Round trip, read after write: in every state that a store built by `newStore`
over an open file can reach (a state in which `Append` still succeeds has seen no I/O
failure), if `Append p` succeeds and returns `pos`, then `Read pos` called right after
it, with no flush or close in between, succeeds and returns exactly `p`, the empty
payload included. The device is taken not to fail under the flush of this `Read`, and
`p` to be no longer than the largest allocation. -/
theorem C1_read_after_append (f : File) (s0 : store) (ops : List Op) (p : List Byte)
    (hfresh : Fresh f s0) (hp : p.length ≤ maxAlloc)
    (happ : ((s0.run ops).Append p).err = none)
    (hio : ((s0.run ops).Append p).s.flushable) :
    (((s0.run ops).Append p).s.Read ((s0.run ops).Append p).pos).2 = Outcome.ok p := by
  have hclean := store.run_clean ops s0 hfresh.clean
    (store.run_appendOk_of_err_none ops s0 (store.err_none_of_append_ok _ p happ))
  obtain ⟨a1, _, _, a4, a5, a6⟩ := store.Append_ok (s0.run ops) p hclean.toWF happ
  have hfl := store.flush_ok_of_flushable _ a6 a5 hio
  have := store.Read_of_record ((s0.run ops).Append p).s (s0.run ops).logical p [] a6.isOpen
    a6.bound hfl (by rw [a4, List.append_nil]) hp
  rw [a1, hclean.size_eq]
  exact this

theorem emptyStore_fresh : Fresh emptyFile emptyStore := ⟨rfl, by decide, rfl⟩

theorem C1_read_after_append_witness :
    ((emptyStore.run [Op.append bang, Op.read 40]).Append hello).err = none ∧
    (((emptyStore.run [Op.append bang, Op.read 40]).Append hello).s.Read
      ((emptyStore.run [Op.append bang, Op.read 40]).Append hello).pos).2 = Outcome.ok hello :=
  ⟨by decide,
   C1_read_after_append emptyFile emptyStore [Op.append bang, Op.read 40] hello emptyStore_fresh
     (by decide) (by decide) ⟨by decide, by decide⟩⟩

/-- C2. A successful `Append p`, in any state a store built by `newStore` over an open
file can be in, returns as position the size the store had before the call and as
number of bytes `8 + len p`; in particular `Append "hello"` on an empty store returns
`(13, 0)` and the following `Append "!"` returns `(9, 13)`. -/
theorem C2_append_results :
    (∀ (f : File) (s0 : store) (ops : List Op) (p : List Byte), Fresh f s0 →
      ((s0.run ops).Append p).err = none →
      ((s0.run ops).Append p).pos = (s0.run ops).size ∧
      ((s0.run ops).Append p).n = 8 + p.length) ∧
    (newStore emptyFile = Except.ok emptyStore ∧
      ((emptyStore.Append hello).n, (emptyStore.Append hello).pos,
        (emptyStore.Append hello).err) = (13, 0, none) ∧
      (((emptyStore.Append hello).s.Append bang).n, ((emptyStore.Append hello).s.Append bang).pos,
        ((emptyStore.Append hello).s.Append bang).err) = (9, 13, none)) := by
  refine ⟨?_, rfl, by decide, by decide⟩
  intro f s0 ops p hfresh happ
  obtain ⟨a1, a2, _⟩ := store.Append_ok (s0.run ops) p
    (store.run_WF ops s0 hfresh.clean.toWF) happ
  exact ⟨a1, a2⟩

theorem C2_append_results_witness :
    ((emptyStore.run [Op.read 0]).Append hello).pos = (emptyStore.run [Op.read 0]).size ∧
    ((emptyStore.run [Op.read 0]).Append hello).n = 8 + hello.length :=
  C2_append_results.1 emptyFile emptyStore [Op.read 0] hello emptyStore_fresh (by decide)

/-- C3. On-disk format: for a store built over a file whose content is `c0`, after any
sequence of successful appends `p1..pk`, a flush that goes through leaves in the file
exactly `c0` followed, for each `i` in order, by the eight bytes of `len pi` in big
endian and then the bytes of `pi`, nothing in between or after; the eight bytes decode
to `len pi` itself; and `Read`, `ReadAt` and `Close` leave the file with the content
that this flush gives it. -/
theorem C3_on_disk_format (f : File) (s0 : store) (ps : List (List Byte))
    (hfresh : Fresh f s0)
    (hok : ∀ r ∈ s0.results (ps.map Op.append), r.isOk = true)
    (hfl : ((s0.run (ps.map Op.append)).buffer.Flush (s0.run (ps.map Op.append)).file).err
      = none) :
    ((s0.run (ps.map Op.append)).buffer.Flush (s0.run (ps.map Op.append)).file).file.content
      = f.content ++ encodeAll ps ∧
    (∀ p ∈ ps, Uint64 (PutUint64 (u64 p.length)) = p.length) ∧
    (∀ pos, ((s0.run (ps.map Op.append)).Read pos).1.file.content = f.content ++ encodeAll ps) ∧
    (∀ data off, ((s0.run (ps.map Op.append)).ReadAt data off).s.file.content
      = f.content ++ encodeAll ps) ∧
    (s0.run (ps.map Op.append)).Close.1.file.content = f.content ++ encodeAll ps := by
  have hok2 : ∀ r ∈ s0.results (ps.map Op.append), r.appendOk = true :=
    fun r hr => Res.appendOk_of_isOk r (hok r hr)
  obtain ⟨h1, _, _⟩ := store.run_spec (ps.map Op.append) s0 hfresh.clean.toWF hok2
  rw [payloads_map_append, hfresh.logical_eq] at h1
  have hwf := store.run_WF (ps.map Op.append) s0 hfresh.clean.toWF
  have hcont := (store.flushed_file_of_ok _ hfl).1
  rw [h1] at hcont
  have hcont2 : ((s0.run (ps.map Op.append)).buffer.Flush
      (s0.run (ps.map Op.append)).file).file.content = f.content ++ encodeAll ps := hcont
  refine ⟨hcont2, ?_, ?_, ?_, ?_⟩
  · intro p hp
    have hlen : (encodeAll ps).length ≤ maxFileSize + defaultBufSize := by
      have hb := hwf.bound
      have hf := hwf.fits
      rw [hwf.cap] at hf
      have : (s0.run (ps.map Op.append)).logical.length = f.content.length + (encodeAll ps).length := by
        rw [h1, List.length_append]
      simp only [store.logical, List.length_append] at this
      omega
    have hple : 8 + p.length ≤ (encodeAll ps).length := by
      rw [encodeAll_length, totalBytes]
      exact List.single_le_sum (fun _ _ => Nat.zero_le _) _
        (List.mem_map_of_mem (fun p => 8 + p.length) hp)
    have hlt : p.length < 2 ^ 64 := by
      simp only [maxFileSize, defaultBufSize] at hlen; omega
    have hu : u64 p.length = p.length := Nat.mod_eq_of_lt hlt
    rw [hu]
    exact Uint64_PutUint64 _ hlt
  · intro pos
    rw [store.Read_state]; exact hcont2
  · intro data off
    rw [store.ReadAt_state]; exact hcont2
  · simp only [store.Close, hfl, File.Close]
    split <;> exact hcont2

theorem C3_on_disk_format_witness :
    ((emptyStore.run ([hello, bang].map Op.append)).buffer.Flush
      (emptyStore.run ([hello, bang].map Op.append)).file).file.content
      = [0, 0, 0, 0, 0, 0, 0, 5, 104, 101, 108, 108, 111, 0, 0, 0, 0, 0, 0, 0, 1, 33] :=
  (C3_on_disk_format emptyFile emptyStore [hello, bang] emptyStore_fresh
    (by decide) (by decide)).1

/-- C4. Offset monotonicity: on a store built over a file of size `n`, for any sequence
of calls in which every `Append` succeeded (reads interleaved at will), the size at
construction is `n`, every append has its position, the position of the first append is
that size, and the position of each next append is the position of the one before plus
`8` plus the length of the payload of the one before. -/
theorem C4_offset_monotonicity (f : File) (s0 : store) (ops : List Op) (hfresh : Fresh f s0)
    (hok : ∀ r ∈ s0.results ops, r.appendOk = true) :
    s0.size = f.content.length ∧
    (positions (s0.results ops)).length = (payloads ops).length ∧
    (∀ a, (positions (s0.results ops))[0]? = some a → a = s0.size) ∧
    (∀ i a b p, (positions (s0.results ops))[i]? = some a →
      (positions (s0.results ops))[i + 1]? = some b → (payloads ops)[i]? = some p →
      b = a + (8 + p.length)) ∧
    positions (s0.results ops) = expectedPositions s0.size (payloads ops) := by
  have h := (store.run_spec ops s0 hfresh.clean.toWF hok).2.2
  refine ⟨hfresh.size_eq, ?_, ?_, ?_, h⟩
  · rw [h, expectedPositions_length]
  · intro a ha
    rw [h] at ha
    exact expectedPositions_head _ _ a ha
  · intro i a b p ha hb hp
    rw [h] at ha hb
    exact expectedPositions_next _ _ i a b p ha hb hp

theorem C4_offset_monotonicity_witness :
    positions (emptyStore.results [Op.append hello, Op.read 0, Op.append bang, Op.append []])
      = [0, 13, 22] :=
  (C4_offset_monotonicity emptyFile emptyStore
    [Op.append hello, Op.read 0, Op.append bang, Op.append []] emptyStore_fresh
    (by decide)).2.2.2.2

/-- C5. Size accounting: from any state of a store, of size `n`, after `k` successful
appends of payloads of lengths `l1..lk` the size is `n` plus the sum of `8 + li`. -/
theorem C5_size_accounting (f : File) (s0 : store) (ops : List Op) (ps : List (List Byte))
    (hfresh : Fresh f s0)
    (hok : ∀ r ∈ (s0.run ops).results (ps.map Op.append), r.isOk = true) :
    ((s0.run ops).run (ps.map Op.append)).size = (s0.run ops).size + totalBytes ps := by
  have := (store.run_spec (ps.map Op.append) (s0.run ops)
    (store.run_WF ops s0 hfresh.clean.toWF)
    (fun r hr => Res.appendOk_of_isOk r (hok r hr))).2.1
  rw [payloads_map_append] at this
  exact this

theorem C5_size_accounting_witness :
    ((emptyStore.run [Op.append bang]).run ([hello, [], bang].map Op.append)).size
      = 9 + (13 + 8 + 9) := by
  have := C5_size_accounting emptyFile emptyStore [Op.append bang] [hello, [], bang]
    emptyStore_fresh (by decide)
  rw [this]
  decide

/-- C6. Failure atomicity of size: when `Append` fails because the write of the length
fails, or because the write of the payload fails, it returns that error (with zeros for
the other results) and the size of the store is what it was before the call. -/
theorem C6_failed_append_keeps_size (s : store) (data : List Byte) (e : Err)
    (h : (binaryWrite s.buffer s.file (u64 data.length)).err = some e ∨
      ((binaryWrite s.buffer s.file (u64 data.length)).err = none ∧
        ((binaryWrite s.buffer s.file (u64 data.length)).w.Write
          (binaryWrite s.buffer s.file (u64 data.length)).file data).err = some e)) :
    (s.Append data).err = some e ∧ (s.Append data).s.size = s.size ∧
      (s.Append data).n = 0 ∧ (s.Append data).pos = 0 := by
  rcases h with h | ⟨h1, h2⟩
  · rw [store.Append_of_len_err s data e h]
    exact ⟨rfl, rfl, rfl, rfl⟩
  · rw [store.Append_of_data_err s data e h1 h2]
    exact ⟨rfl, rfl, rfl, rfl⟩

theorem C6_failed_append_keeps_size_witness :
    (faultyStore.run [Op.append hello, Op.read 0]).size = 13 ∧
    ((faultyStore.run [Op.append hello, Op.read 0]).Append bang).err = some Err.device ∧
    ((faultyStore.run [Op.append hello, Op.read 0]).Append bang).s.size
      = (faultyStore.run [Op.append hello, Op.read 0]).size ∧
    ((faultyStore.run [Op.append hello, Op.read 0]).Append bang).n = 0 ∧
    ((faultyStore.run [Op.append hello, Op.read 0]).Append bang).pos = 0 :=
  ⟨by decide, C6_failed_append_keeps_size (faultyStore.run [Op.append hello, Op.read 0]) bang
    Err.device (Or.inl (by decide))⟩

/-- C7, counterexample: on a fresh store over an empty file whose device fails the
first write, `Append` of 4089 bytes puts the length and 4088 payload bytes in the
buffer, fails in the flush, and returns with `size` still 0 while the buffer holds
4096 bytes. -/
theorem C7_failed_append_breaks_size :
    Fresh faultyFile faultyStore ∧
    (faultyStore.results [Op.append bigPayload]) = [Res.appendFailed Err.device] ∧
    (faultyStore.run [Op.append bigPayload]).size = 0 ∧
    (faultyStore.run [Op.append bigPayload]).file.content.length +
      (faultyStore.run [Op.append bigPayload]).buffer.buf.length = 4096 := by
  have hlen : bigPayload.length = 4089 := List.length_replicate _ _
  have hr1 : binaryWrite faultyStore.buffer faultyStore.file (u64 bigPayload.length) =
      ⟨⟨none, PutUint64 4089, 4096⟩, faultyFile, 8, none⟩ := by
    rw [hlen]; decide
  have hr2 := Writer.Write_fill_fault ⟨none, PutUint64 4089, 4096⟩ faultyFile bigPayload 0 []
    rfl (by decide) (by rw [hlen]; decide) rfl rfl
  have hspec := (Writer.Write_spec ⟨none, PutUint64 4089, 4096⟩ faultyFile bigPayload).logical
  have happ := store.Append_of_data_err faultyStore bigPayload Err.device (by rw [hr1])
    (by rw [hr1]; exact hr2.1)
  rw [hr1] at happ
  refine ⟨⟨rfl, by decide, rfl⟩, ?_, ?_, ?_⟩
  · simp only [store.results, store.step, happ]
  · simp only [store.run, store.step, happ]
    rfl
  · simp only [store.run, store.step, happ]
    have := congrArg List.length hspec
    simp only [List.length_append, List.length_take, hr2.2, hlen, PutUint64_length] at this
    rw [this]
    decide

/-- C7, amended. In every state that a store built by `newStore` over an open file
reaches through `Append`, `Read` and `ReadAt` calls, `size` is at most the length of
the file plus the number of buffered bytes; and when no `Append` among the calls has
failed (reads may have failed), `size` is exactly that sum, the offset at which the
length of the next record will land. -/
theorem C7_size_invariant (f : File) (s0 : store) (ops : List Op) (hfresh : Fresh f s0) :
    (s0.run ops).size ≤ (s0.run ops).file.content.length + (s0.run ops).buffer.buf.length ∧
    ((∀ r ∈ s0.results ops, r.appendOk = true) →
      (s0.run ops).size = (s0.run ops).file.content.length + (s0.run ops).buffer.buf.length ∧
      ∀ p, ((s0.run ops).Append p).err = none →
        ((s0.run ops).Append p).s.logical = (s0.run ops).logical ++ encodeRecord p ∧
        (s0.run ops).logical.length = (s0.run ops).size) := by
  constructor
  · have := (store.run_WF ops s0 hfresh.clean.toWF).size_le
    simpa [store.logical] using this
  · intro hok
    have hclean := store.run_clean ops s0 hfresh.clean hok
    have := hclean.size_eq
    refine ⟨by simpa [store.logical] using this, ?_⟩
    intro p hp
    exact ⟨(store.Append_ok _ p hclean.toWF hp).2.2.2.1, this.symm⟩

theorem C7_size_invariant_witness :
    (faultyStore.results [Op.append hello, Op.read 0]) =
      [Res.appended 13 0, Res.read (Outcome.error Err.device)] ∧
    (faultyStore.run [Op.append hello, Op.read 0]).size =
      (faultyStore.run [Op.append hello, Op.read 0]).file.content.length +
      (faultyStore.run [Op.append hello, Op.read 0]).buffer.buf.length :=
  ⟨by decide,
   ((C7_size_invariant faultyFile faultyStore [Op.append hello, Op.read 0]
      ⟨rfl, by decide, rfl⟩).2 (by decide)).1⟩

/-- C8. Position stability: if `Append p` succeeded with position `pos`, then after any
further sequence of successful `Append`, `Read` and `ReadAt` calls on the same store,
`Read pos` still returns exactly `p`. The device is taken not to fail under the flush of
this `Read`, and `p` to be no longer than the largest allocation. -/
theorem C8_position_stability (f : File) (s0 : store) (ops1 : List Op) (p : List Byte)
    (ops2 : List Op) (hfresh : Fresh f s0) (hp : p.length ≤ maxAlloc)
    (happ : ((s0.run ops1).Append p).err = none)
    (hok : ∀ r ∈ ((s0.run ops1).Append p).s.results ops2, r.isOk = true)
    (hio : (((s0.run ops1).Append p).s.run ops2).flushable) :
    ((((s0.run ops1).Append p).s.run ops2).Read ((s0.run ops1).Append p).pos).2
      = Outcome.ok p := by
  have herr := store.err_none_of_append_ok _ p happ
  have hclean := store.run_clean ops1 s0 hfresh.clean
    (store.run_appendOk_of_err_none ops1 s0 herr)
  obtain ⟨a1, _, _, a4, a5, a6⟩ := store.Append_ok (s0.run ops1) p hclean.toWF happ
  have hok2 : ∀ r ∈ ((s0.run ops1).Append p).s.results ops2, r.appendOk = true :=
    fun r hr => Res.appendOk_of_isOk r (hok r hr)
  obtain ⟨b1, _, _⟩ := store.run_spec ops2 _ a6 hok2
  have hwf := store.run_WF ops2 _ a6
  have herr2 := store.run_err_none ops2 _ a5 hok
  have hfl := store.flush_ok_of_flushable _ hwf herr2 hio
  have := store.Read_of_record (((s0.run ops1).Append p).s.run ops2) (s0.run ops1).logical p
    (encodeAll (payloads ops2)) hwf.isOpen hwf.bound hfl (by rw [b1, a4]) hp
  rw [a1, hclean.size_eq]
  exact this

theorem C8_position_stability_witness :
    ((((emptyStore.run [Op.append bang]).Append hello).s.run
      [Op.append bang, Op.read 0, Op.readAt [0, 0] 3, Op.append []]).Read 9).2
      = Outcome.ok hello :=
  C8_position_stability emptyFile emptyStore [Op.append bang] hello
    [Op.append bang, Op.read 0, Op.readAt [0, 0] 3, Op.append []] emptyStore_fresh
    (by decide) (by decide) (by decide) ⟨by decide, by decide⟩

/-- C9. Persistence across reopen: after calls that all succeeded on a store, among
them the appends of `p1..pk`, and a successful `Close`, a new store built by `newStore`
over a fresh handle of the same file reports as size the final size of the first store,
and its `Read` at each position that was returned for a `pi` returns `pi` (and leaves
the new store as it is, so that the reads can follow one another). The payloads are
taken to be no longer than the largest allocation. -/
theorem C9_persistence_across_reopen (f : File) (s0 : store) (ops : List Op) (g : File)
    (t : store) (hfresh : Fresh f s0)
    (hok : ∀ r ∈ s0.results ops, r.isOk = true)
    (hp : ∀ p ∈ payloads ops, p.length ≤ maxAlloc)
    (hclose : (s0.run ops).Close.2 = none)
    (hg : g.content = (s0.run ops).Close.1.file.content) (hopen : g.closed = false)
    (hnew : newStore g = Except.ok t) :
    t.size = (s0.run ops).size ∧
    ∀ x ∈ List.zip (positions (s0.results ops)) (payloads ops),
      (t.Read x.1).2 = Outcome.ok x.2 ∧ (t.Read x.1).1 = t := by
  have hok2 : ∀ r ∈ s0.results ops, r.appendOk = true :=
    fun r hr => Res.appendOk_of_isOk r (hok r hr)
  have hclean := store.run_clean ops s0 hfresh.clean hok2
  obtain ⟨r1, _, r3⟩ := store.run_spec ops s0 hfresh.clean.toWF hok2
  have hfl : ((s0.run ops).buffer.Flush (s0.run ops).file).err = none := by
    rcases Option.eq_none_or_eq_some ((s0.run ops).buffer.Flush (s0.run ops).file).err with
      h | ⟨e, h⟩
    · exact h
    · simp [store.Close, h] at hclose
  have hcont : (s0.run ops).Close.1.file.content = (s0.run ops).logical := by
    have := (store.flushed_file_of_ok _ hfl).1
    simp only [store.Close, hfl, File.Close]
    split <;> exact this
  have hgc : g.content = (s0.run ops).logical := by rw [hg, hcont]
  have hgb : g.content.length ≤ maxFileSize := by
    have := Writer.Flush_bound (s0.run ops).buffer (s0.run ops).file hclean.bound
    have h2 := (store.flushed_file_of_ok _ hfl).1
    rw [hgc, ← h2]
    exact this
  have hfresh2 : Fresh g t := ⟨hopen, hgb, hnew⟩
  obtain ⟨n1, n2, _⟩ := newStore_ok g t hnew
  have hbe : t.buffer.err = none := by rw [n2]; rfl
  have hbb : t.buffer.buf = [] := by rw [n2]; rfl
  have hflt : (t.buffer.Flush t.file).err = none := by
    rw [Writer.Flush_of_empty _ _ hbe hbb]
  refine ⟨by rw [hfresh2.size_eq, hgc, hclean.size_eq], ?_⟩
  intro x hx
  rw [r3] at hx
  obtain ⟨A, B, h1, h2⟩ := expectedPositions_split (payloads ops) s0.size s0.logical
    hfresh.clean.size_eq.symm x hx
  have hpx : x.2.length ≤ maxAlloc := hp _ (List.of_mem_zip hx).2
  have := store.Read_of_record t A x.2 B hfresh2.clean.isOpen hfresh2.clean.bound hflt
    (by rw [hfresh2.logical_eq, hgc, r1, h1]) hpx
  rw [h2] at this
  exact ⟨this, by rw [store.Read_state, store.flushed_of_empty t hbe hbb]⟩

theorem C9_persistence_across_reopen_witness :
    (emptyStore.run [Op.append hello, Op.append bang]).Close.2 = none ∧
    (⟨⟨encodeAll [hello, bang], false, [], none⟩, NewWriter, 22⟩ : store).size =
      (emptyStore.run [Op.append hello, Op.append bang]).size ∧
    ∀ x ∈ List.zip (positions (emptyStore.results [Op.append hello, Op.append bang]))
        (payloads [Op.append hello, Op.append bang]),
      ((⟨⟨encodeAll [hello, bang], false, [], none⟩, NewWriter, 22⟩ : store).Read x.1).2
        = Outcome.ok x.2 ∧
      ((⟨⟨encodeAll [hello, bang], false, [], none⟩, NewWriter, 22⟩ : store).Read x.1).1
        = ⟨⟨encodeAll [hello, bang], false, [], none⟩, NewWriter, 22⟩ :=
  ⟨by decide,
   C9_persistence_across_reopen emptyFile emptyStore [Op.append hello, Op.append bang]
     ⟨encodeAll [hello, bang], false, [], none⟩
     ⟨⟨encodeAll [hello, bang], false, [], none⟩, NewWriter, 22⟩
     emptyStore_fresh (by decide) (by decide) (by decide) (by decide) rfl rfl⟩

/-- C10, counterexample: on a store holding the one record "hello" (13 bytes), a raw
read into a buffer of 8 bytes at offset 10 finds 3 bytes; `store.ReadAt` returns 3
together with the error `io.EOF`, not without error. -/
theorem C10_short_read_returns_eof :
    ((emptyStore.Append hello).s.ReadAt [0, 0, 0, 0, 0, 0, 0, 0] 10).n = 3 ∧
    ((emptyStore.Append hello).s.ReadAt [0, 0, 0, 0, 0, 0, 0, 0] 10).err = some Err.eof := by
  decide

/-- C10, amended. For every store over an open file, every non-empty buffer and every
offset from zero on such that fewer bytes than the buffer holds lie between the offset
and the end of the flushed file, `store.ReadAt` (its flush going through) returns an
error with the number of bytes actually read: when the offset plus the length of the
buffer stays within the largest file offset `2^63 - 1`, it leaves the bytes read at the
front of the buffer and returns the error `io.EOF`; when it passes that offset, it reads
nothing, leaves the buffer as it is and returns the error `EINVAL`. -/
theorem C10_short_raw_read (s : store) (data : List Byte) (off : Int)
    (hopen : s.file.closed = false)
    (hfl : (s.buffer.Flush s.file).err = none) (hoff : 0 ≤ off)
    (hshort : (s.logical.drop off.toNat).length < data.length) :
    (off.toNat + data.length ≤ maxFileSize →
      (s.ReadAt data off).n = (s.logical.drop off.toNat).length ∧
      (s.ReadAt data off).data =
        s.logical.drop off.toNat ++ data.drop (s.logical.drop off.toNat).length ∧
      (s.ReadAt data off).err = some Err.eof) ∧
    (maxFileSize < off.toNat + data.length →
      (s.ReadAt data off).n = 0 ∧ (s.ReadAt data off).data = data ∧
      (s.ReadAt data off).err = some Err.invalidArgument) := by
  have hcont : (s.buffer.Flush s.file).file.content = s.logical :=
    (store.flushed_file_of_ok s hfl).1
  have hcl : (s.buffer.Flush s.file).file.closed = false := by
    rw [Writer.Flush_closed, hopen]
  have hne : data.length ≠ 0 := by omega
  have hofn : ((off.toNat : Nat) : Int) = off := Int.toNat_of_nonneg hoff
  constructor
  · intro hin
    have htake : (s.logical.drop off.toNat).take data.length = s.logical.drop off.toNat :=
      List.take_of_length_le (by omega)
    have hr : (s.buffer.Flush s.file).file.ReadAt data.length off =
        (s.logical.drop off.toNat, some Err.eof) := by
      have h := File.ReadAt_open (s.buffer.Flush s.file).file data.length off.toNat hcl hne hin
      rw [hofn, hcont, htake, if_pos hshort] at h
      exact h
    simp only [store.ReadAt, hfl, hr, and_self]
  · intro hout
    have hr : (s.buffer.Flush s.file).file.ReadAt data.length off =
        ([], some Err.invalidArgument) := by
      have h := File.ReadAt_beyond (s.buffer.Flush s.file).file data.length off.toNat hcl hne
        hout
      rw [hofn] at h
      exact h
    simp only [store.ReadAt, hfl, hr, List.nil_append, List.length_nil, List.drop_zero, and_self]

theorem C10_short_raw_read_witness :
    ((emptyStore.Append hello).s.ReadAt [0, 0, 0, 0, 0, 0, 0, 0] 10).data =
      [108, 108, 111, 0, 0, 0, 0, 0] ∧
    ((emptyStore.Append hello).s.ReadAt [0, 0, 0, 0, 0, 0, 0, 0] 10).err = some Err.eof ∧
    ((emptyStore.Append hello).s.ReadAt [0, 0, 0, 0, 0, 0, 0, 0] (2 ^ 63 - 8)).n = 0 ∧
    ((emptyStore.Append hello).s.ReadAt [0, 0, 0, 0, 0, 0, 0, 0] (2 ^ 63 - 8)).err =
      some Err.invalidArgument :=
  ⟨by decide,
   ((C10_short_raw_read (emptyStore.Append hello).s [0, 0, 0, 0, 0, 0, 0, 0] 10
     (by decide) (by decide) (by decide) (by decide)).1 (by decide)).2.2,
   ((C10_short_raw_read (emptyStore.Append hello).s [0, 0, 0, 0, 0, 0, 0, 0] (2 ^ 63 - 8)
     (by decide) (by decide) (by decide) (by decide)).2 (by decide)).1,
   ((C10_short_raw_read (emptyStore.Append hello).s [0, 0, 0, 0, 0, 0, 0, 0] (2 ^ 63 - 8)
     (by decide) (by decide) (by decide) (by decide)).2 (by decide)).2.2⟩

/-- C11, counterexample: a store holds one record, at position 0, whose nine payload
bytes are the length 1 on eight bytes and then the byte 7. Position 8 lies inside the
file and is not the start of a record, yet `Read 8` returns the payload `[7]` and no
error. -/
theorem C11_unaligned_read_returns_bytes :
    positions (emptyStore.results [Op.append nestedPayload]) = [0] ∧
    (emptyStore.run [Op.append nestedPayload]).logical.length = 17 ∧
    ((emptyStore.run [Op.append nestedPayload]).Read 8).2 = Outcome.ok [7] := by
  decide

/-- C11, amended. `Read` makes no check of alignment. For every store built by
`newStore` over an open file, in any state, and every position, at the start of a record
or not, `Read` (its flush going through) takes the eight bytes at the position as a
length `L`. It returns an I/O error when fewer than eight bytes lie from the position on.
When `L` is within the largest allocation and `make` finds the memory for `L` bytes, it
returns the error of the second read (`io.EOF`, or `EINVAL` if the announced range
passes the largest file offset) when fewer than `L` bytes follow, and it returns the `L`
bytes that follow, as the payload, when they are there. What happens when `make` does
not find the memory is no part of this statement. -/
theorem C11_read_any_position (f : File) (s0 : store) (ops : List Op) (pos : Nat)
    (mem : Nat → Bool) (hfresh : Fresh f s0) (hpos : pos < 2 ^ 64)
    (hfl : ((s0.run ops).buffer.Flush (s0.run ops).file).err = none) :
    ((s0.run ops).logical.length < pos + 8 →
      ∃ e, ((s0.run ops).ReadMem mem pos).2 = Outcome.error e) ∧
    (pos + 8 ≤ (s0.run ops).logical.length →
      Uint64 (((s0.run ops).logical.drop pos).take 8) ≤ maxAlloc →
      mem (Uint64 (((s0.run ops).logical.drop pos).take 8)) = true →
      (s0.run ops).logical.length < pos + 8 + Uint64 (((s0.run ops).logical.drop pos).take 8) →
      ((s0.run ops).ReadMem mem pos).2 = Outcome.error
        (if pos + 8 + Uint64 (((s0.run ops).logical.drop pos).take 8) ≤ maxFileSize
          then Err.eof else Err.invalidArgument)) ∧
    (Uint64 (((s0.run ops).logical.drop pos).take 8) ≤ maxAlloc →
      mem (Uint64 (((s0.run ops).logical.drop pos).take 8)) = true →
      pos + 8 + Uint64 (((s0.run ops).logical.drop pos).take 8) ≤ (s0.run ops).logical.length →
      ((s0.run ops).ReadMem mem pos).2 = Outcome.ok (((s0.run ops).logical.drop (pos + 8)).take
        (Uint64 (((s0.run ops).logical.drop pos).take 8)))) := by
  have hwf := store.run_WF ops s0 hfresh.clean.toWF
  exact ⟨store.ReadMem_short_len mem _ pos hwf.isOpen hfl hpos,
    store.ReadMem_short_data mem _ pos hwf.isOpen hwf.bound hfl,
    store.ReadMem_full mem _ pos hwf.isOpen hwf.bound hfl⟩

theorem C11_read_any_position_witness :
    ((emptyStore.run [Op.append nestedPayload]).ReadMem (fun n => decide (n ≤ 4096)) 8).2 =
      Outcome.ok [7] ∧
    ((emptyStore.run [Op.append nestedPayload]).ReadMem (fun n => decide (n ≤ 4096)) 8).2 =
      Outcome.ok
      (((emptyStore.run [Op.append nestedPayload]).logical.drop (8 + 8)).take
        (Uint64 (((emptyStore.run [Op.append nestedPayload]).logical.drop 8).take 8))) :=
  ⟨by decide,
   (C11_read_any_position emptyFile emptyStore [Op.append nestedPayload] 8
    (fun n => decide (n ≤ 4096)) emptyStore_fresh
    (by decide) (by decide)).2.2 (by decide) (by decide) (by decide)⟩

/-- C12, the failing input: a store over a file that holds eight bytes `0xFF`. From
position 0 the eight bytes decode to the length `2^64 - 1` and no byte follows them, so
the read is short; `Read 0` does not return an error, it panics in `make`. The same
happens through the store's own calls: after `Append` of eight bytes `0xFF`, at
position 8. -/
theorem C12_read_panics_on_huge_length :
    Fresh ffFile ffStore ∧ ffStore.logical.length = 8 ∧
    Uint64 ((ffStore.logical.drop 0).take 8) = 2 ^ 64 - 1 ∧
    (ffStore.Read 0).2 = Outcome.panic ∧
    (emptyStore.Append ffBytes).err = none ∧
    ((emptyStore.Append ffBytes).s.Read 8).2 = Outcome.panic := by
  refine ⟨⟨rfl, by decide, rfl⟩, by decide, by decide, by decide, by decide, by decide⟩


/-- C13. `Close` flushes before it closes. For every store: if the flush fails, `Close`
returns that error and does not touch the handle; otherwise `Close` is the close of the
handle after the flush, and when it returns success every byte that earlier appends
left in the buffer is in the file, in order, after the content the file had, the buffer
is empty, and the handle, which was open, is closed. -/
theorem C13_close_flushes_first (s : store) :
    (∀ e, (s.buffer.Flush s.file).err = some e →
      s.Close.2 = some e ∧ s.Close.1.file.closed = s.file.closed) ∧
    ((s.buffer.Flush s.file).err = none →
      s.Close = ({ s.flushed with file := s.flushed.file.Close.1 }, s.flushed.file.Close.2)) ∧
    (s.Close.2 = none →
      (s.buffer.Flush s.file).err = none ∧
      s.Close.1.file.content = s.file.content ++ s.buffer.buf ∧
      s.Close.1.buffer.buf = [] ∧
      s.file.closed = false ∧ s.Close.1.file.closed = true) := by
  refine ⟨?_, ?_, ?_⟩
  · intro e he
    simp only [store.Close, he, Writer.Flush_closed, and_self]
  · intro he
    simp only [store.Close, he, store.flushed]
  · intro hc
    rcases Option.eq_none_or_eq_some (s.buffer.Flush s.file).err with he | ⟨e, he⟩
    · obtain ⟨h1, h2, _⟩ := store.flushed_file_of_ok s he
      have hcl := Writer.Flush_closed s.buffer s.file
      have h1' : (s.buffer.Flush s.file).file.content = s.file.content ++ s.buffer.buf := h1
      have h2' : (s.buffer.Flush s.file).w.buf = [] := h2
      by_cases hopen : s.file.closed = true
      · simp [store.Close, he, File.Close, hcl, hopen] at hc
      · simp only [Bool.not_eq_true] at hopen
        have hcl2 : (s.buffer.Flush s.file).file.closed = false := by rw [hcl, hopen]
        have hC : s.Close = (⟨{ (s.buffer.Flush s.file).file with closed := true },
            (s.buffer.Flush s.file).w, s.size⟩, none) := by
          simp [store.Close, he, File.Close, hcl2]
        rw [hC]
        exact ⟨he, h1', h2', hopen, rfl⟩
    · simp [store.Close, he] at hc

theorem C13_close_flushes_first_witness :
    (emptyStore.run [Op.append hello]).file.content = [] ∧
    (emptyStore.run [Op.append hello]).Close.1.file.content =
      (emptyStore.run [Op.append hello]).file.content ++
        (emptyStore.run [Op.append hello]).buffer.buf ∧
    (emptyStore.run [Op.append hello]).Close.1.file.closed = true :=
  ⟨by decide,
   ((C13_close_flushes_first (emptyStore.run [Op.append hello])).2.2 (by decide)).2.1,
   ((C13_close_flushes_first (emptyStore.run [Op.append hello])).2.2 (by decide)).2.2.2.2⟩

/-- C15. Reads do not change the log. For every store, a `Read` that returns a payload
and a `ReadAt` that returns no error leave the size as it was and the bytes of the log
(the file followed by the buffer) as they were; all they do to the store is move the
buffered bytes to the end of the file and leave the buffer empty. -/
theorem C15_reads_keep_the_log (s : store) :
    (∀ pos p, (s.Read pos).2 = Outcome.ok p → s.OnlyFlushed (s.Read pos).1) ∧
    (∀ data off, (s.ReadAt data off).err = none → s.OnlyFlushed (s.ReadAt data off).s) := by
  constructor
  · intro pos p h
    rw [store.Read_state]
    exact store.flushed_onlyFlushed s (store.flush_ok_of_Read_ok s pos p h)
  · intro data off h
    rw [store.ReadAt_state]
    exact store.flushed_onlyFlushed s (store.flush_ok_of_ReadAt_ok s data off h)

theorem C15_reads_keep_the_log_witness :
    ((emptyStore.run [Op.append hello, Op.append bang]).Read 13).2 = Outcome.ok bang ∧
    (emptyStore.run [Op.append hello, Op.append bang]).buffer.buf.length = 22 ∧
    (emptyStore.run [Op.append hello, Op.append bang]).OnlyFlushed
      ((emptyStore.run [Op.append hello, Op.append bang]).Read 13).1 :=
  ⟨by decide, by decide,
   (C15_reads_keep_the_log (emptyStore.run [Op.append hello, Op.append bang])).1 13 bang
     (by decide)⟩


/-- C16. Round trip of the in-memory log: for every `Log` and every record `r`,
`Log.Append r` does not fail and returns the number of records the log holds, which for
a log grown from `NewLog` is the number of records appended before; and after any
further appends, `Log.Read` of the offset returned gives, without error, the record
whose `Value` is that of `r` and whose `Offset` is the offset returned, whatever
`Offset` `r` carried. The lengths are those of Go slices, below `2^63`. -/
theorem C16_log_round_trip (c : Log) (r : Record) (more : List Record)
    (hlen : c.records.length + 1 + more.length < 2 ^ 63) :
    (c.Append r).2.2 = none ∧
    (c.Append r).2.1 = c.records.length ∧
    (∀ before, c = NewLog.appendAll before → (c.Append r).2.1 = before.length) ∧
    ((c.Append r).1.appendAll more).Read (c.Append r).2.1 =
      some (⟨r.Value, (c.Append r).2.1⟩, none) := by
  have hu : u64 c.records.length = c.records.length := Nat.mod_eq_of_lt (by omega)
  have hoff : (c.Append r).2.1 = c.records.length := hu
  refine ⟨rfl, hoff, ?_, ?_⟩
  · intro before hb
    rw [hoff, hb, Log.appendAll_length]
    simp [NewLog]
  · obtain ⟨tail, h1, h2⟩ := Log.appendAll_records more (c.Append r).1
    have hlen2 : ((c.Append r).1.appendAll more).records.length =
        c.records.length + 1 + more.length := by
      rw [Log.appendAll_length, Log.Append_records, List.length_append, List.length_singleton]
    have hu2 : u64 ((c.Append r).1.appendAll more).records.length =
        c.records.length + 1 + more.length := by
      rw [hlen2]; exact Nat.mod_eq_of_lt (by omega)
    rw [hoff]
    apply Log.Read_of_lt
    · rw [hu2]; omega
    · rw [h1, Log.Append_records, hu, List.append_assoc,
        List.getElem?_append_right (Nat.le_refl _)]
      simp

theorem C16_log_round_trip_witness :
    ((NewLog.appendAll [⟨hello, 7⟩]).Append ⟨bang, 99⟩).2.1 = 1 ∧
    (((NewLog.appendAll [⟨hello, 7⟩]).Append ⟨bang, 99⟩).1.appendAll [⟨[], 5⟩, ⟨hello, 0⟩]).Read
      ((NewLog.appendAll [⟨hello, 7⟩]).Append ⟨bang, 99⟩).2.1 =
      some (⟨bang, ((NewLog.appendAll [⟨hello, 7⟩]).Append ⟨bang, 99⟩).2.1⟩, none) :=
  ⟨by decide,
   (C16_log_round_trip (NewLog.appendAll [⟨hello, 7⟩]) ⟨bang, 99⟩ [⟨[], 5⟩, ⟨hello, 0⟩]
     (by decide)).2.2.2⟩

/-- C17. Bounds of the in-memory log: for every `Log` holding `n` records (a Go slice,
so `n < 2^63`) and every offset, `Log.Read` returns `ErrOffsetNotFound` with an empty
`Record` if and only if the offset is at least `n`; below `n` it returns the record at
that index and no error; and the indexing is never out of range (no panic). -/
theorem C17_log_read_bounds (c : Log) (offset : Nat) (hlen : c.records.length < 2 ^ 63) :
    (c.Read offset = some (⟨[], 0⟩, some ErrOffsetNotFound) ↔ c.records.length ≤ offset) ∧
    (offset < c.records.length →
      ∃ r, c.records[offset]? = some r ∧ c.Read offset = some (r, none)) ∧
    c.Read offset ≠ none := by
  have hu : u64 c.records.length = c.records.length := Nat.mod_eq_of_lt (by omega)
  have hin : offset < c.records.length →
      ∃ r, c.records[offset]? = some r ∧ c.Read offset = some (r, none) := by
    intro hlt
    refine ⟨c.records[offset], List.getElem?_eq_getElem hlt, ?_⟩
    exact Log.Read_of_lt c offset _ (by rw [hu]; exact hlt) (List.getElem?_eq_getElem hlt)
  refine ⟨⟨?_, ?_⟩, hin, ?_⟩
  · intro h
    by_contra hlt
    obtain ⟨r, _, hr⟩ := hin (by omega)
    rw [hr] at h
    simp at h
  · intro hge
    exact Log.Read_of_ge c offset (by rw [hu]; exact hge)
  · by_cases hlt : offset < c.records.length
    · obtain ⟨r, _, hr⟩ := hin hlt
      rw [hr]; simp
    · rw [Log.Read_of_ge c offset (by rw [hu]; omega)]; simp

theorem C17_log_read_bounds_witness :
    (NewLog.appendAll [⟨hello, 7⟩, ⟨bang, 7⟩]).Read 2 = some (⟨[], 0⟩, some ErrOffsetNotFound) ∧
    (NewLog.appendAll [⟨hello, 7⟩, ⟨bang, 7⟩]).Read 1 = some (⟨bang, 1⟩, none) :=
  ⟨((C17_log_read_bounds (NewLog.appendAll [⟨hello, 7⟩, ⟨bang, 7⟩]) 2 (by decide)).1).2
     (by decide),
   by decide⟩

/-- C18. Status of a consume request for a missing offset: for every request that
decodes and whose offset is not in the log, `handleConsume` answers with status 500 and
the text of `ErrOffsetNotFound`; the guard of the branch that would answer 404 is false
whenever the check of the error before it has let the handler pass, and no input at all
makes the handler answer 404. -/
theorem C18_consume_missing_offset :
    (∀ (s : httpServer) (req : ConsumeRequest) (encodeErr : Option SrvErr),
      s.Log.records.length ≤ req.Offset →
      s.handleConsume (Except.ok req) encodeErr =
        some (httpError ErrOffsetNotFound.Error StatusInternalServerError)) ∧
    (∀ err : Option SrvErr, ¬ (err ≠ none) → errorsIs err ErrOffsetNotFound = false) ∧
    (∀ (s : httpServer) (decoded : Except SrvErr ConsumeRequest) (encodeErr : Option SrvErr)
      (resp : Response), s.handleConsume decoded encodeErr = some resp →
      resp.status ≠ StatusNotFound) := by
  refine ⟨?_, ?_, ?_⟩
  · intro s req encodeErr hge
    have hr := Log.Read_of_ge s.Log req.Offset (le_trans (u64_le _) hge)
    simp [httpServer.handleConsume, hr, errText]
  · intro err herr
    have : err = none := by
      by_contra h
      exact herr h
    subst this
    rfl
  · intro s decoded encodeErr resp h
    cases decoded with
    | error e =>
      simp only [httpServer.handleConsume, Option.some.injEq] at h
      rw [← h]; simp [httpError, StatusBadRequest, StatusInternalServerError, StatusOK,
            StatusNotFound]
    | ok req =>
      simp only [httpServer.handleConsume] at h
      cases hr : s.Log.Read req.Offset with
      | none => simp [hr] at h
      | some x =>
        obtain ⟨record, err⟩ := x
        cases err with
        | some e =>
          simp [hr] at h
          rw [← h]; simp [httpError, StatusBadRequest, StatusInternalServerError, StatusOK,
            StatusNotFound]
        | none =>
          cases encodeErr with
          | some e =>
            simp [hr, errorsIs, ErrOffsetNotFound] at h
            rw [← h]; simp [httpError, StatusBadRequest, StatusInternalServerError, StatusOK,
            StatusNotFound]
          | none =>
            simp [hr, errorsIs, ErrOffsetNotFound] at h
            rw [← h]; simp [httpError, StatusBadRequest, StatusInternalServerError, StatusOK,
            StatusNotFound]

theorem C18_consume_missing_offset_witness :
    (⟨NewLog.appendAll [⟨hello, 0⟩]⟩ : httpServer).handleConsume (Except.ok ⟨1⟩) none =
      some (httpError ErrOffsetNotFound.Error StatusInternalServerError) :=
  C18_consume_missing_offset.1 ⟨NewLog.appendAll [⟨hello, 0⟩]⟩ ⟨1⟩ none (by decide)

end Proglog
